import Mathlib

/-!
# Verification of `lib/bitcoin.py` (Electrum core)

A shallow embedding of the key-management / codec core of the repository.
Byte strings are modelled as `List Nat` (each entry a byte value), Python
text strings as `List Nat` of character codes.  Fallible Python code is
modelled with `Except PyErr`.  External library primitives (hashlib, hmac,
ecdsa point arithmetic, base64, pyaes) are abstracted into a `Prims`
structure; everything defined in `lib/bitcoin.py` itself is translated
directly.
-/

set_option maxRecDepth 4000

/-- Python exception classes raised by the embedded code. -/
inductive PyErr : Type
  | typeError
  | valueError
  | assertionError
  | runtimeError
  | nameError
  | indexError
  | invalidPassword
  | exception (msg : String)
  | baseException (msg : String)
  deriving DecidableEq

deriving instance DecidableEq for Except

/-- Count of leading elements equal to `x` (the `nPad` loops of
`base_encode` / `base_decode`). -/
def countLeading (x : Nat) : List Nat → Nat
  | [] => 0
  | c :: t => if c = x then countLeading x t + 1 else 0

/-- Value of a least-significant-first digit list in the given base
(`long_value` accumulation over a reversed byte/char string). -/
def ofDigitsLSB (base : Nat) : List Nat → Nat
  | [] => 0
  | d :: t => d + base * ofDigitsLSB base t

/-- Big-endian byte-string value: `string_to_number` of the ecdsa utils,
and the `long_value` computed by `base_encode` over `v[::-1]`. -/
def beNum (v : List Nat) : Nat := ofDigitsLSB 256 v.reverse

/-- Fuel-driven worker for `toDigitsLSB`; `fuel ≥ n` always suffices
because the value strictly decreases on every division step. -/
def toDigitsLSBGo (base : Nat) : Nat → Nat → List Nat
  | 0, n => [n]
  | fuel + 1, n =>
    if 2 ≤ base ∧ base ≤ n then n % base :: toDigitsLSBGo base fuel (n / base)
    else [n]

/-- The `while long_value >= base: divmod` emission loop shared by
`base_encode` (base 58/43) and `base_decode` (base 256): produces the
digits least-significant first, with a final digit `< base` always
appended (so `0` yields `[0]`). Faithful for `2 ≤ base`. -/
def toDigitsLSB (base : Nat) (n : Nat) : List Nat :=
  toDigitsLSBGo base n n

/-- `bytes.find(bytes([c]))`: index of the first occurrence of byte `c`,
or `-1` when absent. -/
def pyFind : List Nat → Nat → Int
  | [], _ => -1
  | a :: t, c =>
    if a = c then 0
    else
      let r := pyFind t c
      if r < 0 then -1 else r + 1

/-- `__b58chars = b'123456789ABCDEFGHJKLMNPQRSTUVWXYZabcdefghijkmnopqrstuvwxyz'` -/
def b58chars : List Nat :=
  [49, 50, 51, 52, 53, 54, 55, 56, 57,
   65, 66, 67, 68, 69, 70, 71, 72, 74, 75, 76, 77, 78, 80, 81, 82, 83,
   84, 85, 86, 87, 88, 89, 90,
   97, 98, 99, 100, 101, 102, 103, 104, 105, 106, 107, 109, 110, 111,
   112, 113, 114, 115, 116, 117, 118, 119, 120, 121, 122]

/-- `__b43chars = b'0123456789ABCDEFGHIJKLMNOPQRSTUVWXYZ$*+-./:'` -/
def b43chars : List Nat :=
  [48, 49, 50, 51, 52, 53, 54, 55, 56, 57,
   65, 66, 67, 68, 69, 70, 71, 72, 73, 74, 75, 76, 77, 78, 79, 80, 81,
   82, 83, 84, 85, 86, 87, 88, 89, 90,
   36, 42, 43, 45, 46, 47, 58]

/-- `base_encode(v, base)`: big-endian base conversion with
leading-zero-byte compression into leading zero-digit characters. -/
def base_encode (v : List Nat) (base : Nat) : Except PyErr (List Nat) :=
  if ¬ (base = 58 ∨ base = 43) then .error .assertionError else
  let chars := if base = 43 then b43chars else b58chars
  let long_value := ofDigitsLSB 256 v.reverse
  let result := (toDigitsLSB base long_value).map (fun d => chars.getD d 0)
  let nPad := countLeading 0 v
  let result := result ++ List.replicate nPad (chars.headD 0)
  .ok result.reverse

/-- `long_value` accumulation of `base_decode` over the reversed input:
`chars.find` yields `-1` for characters outside the alphabet, which is
**summed in** rather than rejected. -/
def decodeLongValue (chars : List Nat) (base : Nat) : List Nat → Int
  | [] => 0
  | c :: t => pyFind chars c + (base : Int) * decodeLongValue chars base t

/-- `base_decode(v, length, base)`.  Returns `.ok none` for the
`len(result) != length` early `return None`; raises `ValueError` when the
accumulated value is negative (the `bytearray.append` of a negative
remainder, which can happen because `find` returns `-1`). -/
def base_decode (v : List Nat) (length : Option Nat) (base : Nat) :
    Except PyErr (Option (List Nat)) :=
  if ¬ (base = 58 ∨ base = 43) then .error .assertionError else
  let chars := if base = 43 then b43chars else b58chars
  let long_value := decodeLongValue chars base v.reverse
  if long_value < 0 then .error .valueError else
  let result := toDigitsLSB 256 long_value.toNat
  let nPad := countLeading (chars.headD 0) v
  let result := result ++ List.replicate nPad 0
  match length with
  | some L => if result.length ≠ L then .ok none else .ok (some result.reverse)
  | none => .ok (some result.reverse)

/-! ### Hex-string helpers (`lib/util.py` `bfh`/`bh2u` and `hex()`
formatting used by `int_to_hex`, `var_int`, `xprv_header`, ...) -/

/-- ASCII code of the lowercase hex digit for `d < 16`. -/
def hexCodeLower (d : Nat) : Nat := if d < 10 then 48 + d else 87 + d

/-- ASCII code of the uppercase hex digit for `d < 16` (`"%X"` formatting). -/
def hexCodeUpper (d : Nat) : Nat := if d < 10 then 48 + d else 55 + d

/-- `hex(i)[2:]` for a nonnegative int: minimal lowercase hex digits,
`"0"` for zero. -/
def natToHexMin (n : Nat) : List Nat := ((toDigitsLSB 16 n).map hexCodeLower).reverse

/-- `"%X" % i`: minimal uppercase hex digits. -/
def natToHexMinUpper (n : Nat) : List Nat := ((toDigitsLSB 16 n).map hexCodeUpper).reverse

/-- Is this ASCII code a hex digit (`0-9`, `a-f`, `A-F`)? -/
def isHexDigitCode (c : Nat) : Bool :=
  (48 ≤ c && c ≤ 57) || (97 ≤ c && c ≤ 102) || (65 ≤ c && c ≤ 70)

/-- Value of a hex digit ASCII code. -/
def hexVal (c : Nat) : Nat :=
  if c ≤ 57 then c - 48 else if c ≤ 70 then c - 55 else c - 87

/-- Modelled from the spec: `bfh` from `lib/util.py` (not under `src/`),
i.e. `bytes.fromhex`: parses pairs of hex digits, raising `ValueError` on
an odd-length string or a non-hex character. -/
def bfh : List Nat → Except PyErr (List Nat)
  | [] => .ok []
  | [_] => .error .valueError
  | c1 :: c2 :: rest =>
    if isHexDigitCode c1 && isHexDigitCode c2 then
      match bfh rest with
      | .ok t => .ok ((hexVal c1 * 16 + hexVal c2) :: t)
      | .error e => .error e
    else .error .valueError

/-- Modelled from the spec: `bh2u` from `lib/util.py` (not under `src/`):
lowercase hex representation of a byte string. -/
def bh2u (bs : List Nat) : List Nat :=
  bs.bind (fun b => [hexCodeLower (b / 16), hexCodeLower (b % 16)])

/-- `rev_hex(s) = bh2u(bfh(s)[::-1])`. -/
def rev_hex (s : List Nat) : Except PyErr (List Nat) := do
  let b ← bfh s
  pure (bh2u b.reverse)

/-- ASCII codes of a string literal. -/
def strCodes (s : String) : List Nat := s.data.map Char.toNat

/-- `int_to_hex(i, length)`: zero-pad the minimal hex form to `2*length`
characters and byte-reverse it (little-endian hex). -/
def int_to_hex (i : Nat) (length : Nat) : Except PyErr (List Nat) :=
  let s := natToHexMin i
  let s := List.replicate (2 * length - s.length) 48 ++ s
  rev_hex s

/-- `var_int(i)`: Bitcoin variable-length integer, as a hex string. -/
def var_int (i : Nat) : Except PyErr (List Nat) :=
  if i < 0xfd then int_to_hex i 1
  else if i ≤ 0xffff then do pure (strCodes "fd" ++ (← int_to_hex i 2))
  else if i ≤ 0xffffffff then do pure (strCodes "fe" ++ (← int_to_hex i 4))
  else do pure (strCodes "ff" ++ (← int_to_hex i 8))

/-! ### External primitives and network constants -/

/-- Mainnet constants (the module-level globals with `TESTNET = False`). -/
def ADDRTYPE_P2PKH : Nat := 0

def ADDRTYPE_P2SH : Nat := 5

def ADDRTYPE_P2WPKH : Nat := 6

def XPRV_HEADER : Nat := 0x0488ade4

def XPUB_HEADER : Nat := 0x0488b21e

def BIP32_PRIME : Nat := 0x80000000

/-- `generator_secp256k1.order()`. -/
def secpOrder : Nat :=
  0xfffffffffffffffffffffffffffffffebaaedce6af48a03bbfd25e8cd0364141

/-- External library primitives consumed by `lib/bitcoin.py`: hashes and
HMACs (`hashlib`, `hmac`), base64, the AES cipher (`pyaes`/`Cryptodome`),
and the secp256k1 point arithmetic of the `ecdsa` package, over an
abstract point type `Pt`.  `mulG n` is `n·G`; `pmul n p` is `n·p`;
`padd` is point addition; `pointToSer p comp` is `point_to_ser`'s
coordinate formatting; `deserPoint` is the body of `ser_to_point` after
its marker-byte assert (including `ECC_YfromX` recovery); `recoverPt` is
`MyVerifyingKey.from_signature`; `verifyDigest` is
`ecdsa.VerifyingKey.verify_digest` (raises on a bad signature);
`ecdsaSignNumber` is the base `ecdsa.SigningKey.sign_number`;
`digestToInt` is the digest-to-scalar step of
`sign_digest_deterministic`. -/
structure Prims (Pt : Type) where
  sha256 : List Nat → List Nat
  sha512 : List Nat → List Nat
  ripemd160 : List Nat → List Nat
  hmacSha512 : List Nat → List Nat → List Nat
  hmacSha256 : List Nat → List Nat → List Nat
  b64decode : List Nat → List Nat
  aesDecrypt : List Nat → List Nat → List Nat → Except PyErr (List Nat)
  mulG : Nat → Pt
  pmul : Nat → Pt → Pt
  padd : Pt → Pt → Pt
  pointToSer : Pt → Bool → List Nat
  pointRaw : Pt → List Nat
  deserPoint : List Nat → Except PyErr Pt
  pointIsValid : Pt → Bool
  ecdsaSignNumber : Nat → Nat → Nat × Nat
  recoverPt : List Nat → Nat → List Nat → Except PyErr Pt
  verifyDigest : Pt → List Nat → List Nat → Except PyErr Unit
  digestToInt : List Nat → Nat

/-- Big-endian fixed-width byte encoding (worker for `number_to_string`). -/
def natToBE : Nat → Nat → List Nat
  | 0, _ => []
  | k + 1, n => natToBE k (n / 256) ++ [n % 256]

/-- `ecdsa.util.number_to_string(n, order)` for the secp256k1 order:
32-byte big-endian form (`"%064x"` + `unhexlify`; the library asserts
`n < 2^256`, which holds at every call site since `n < order`). -/
def number_to_string (n : Nat) : List Nat := natToBE 32 n

/-- `ecdsa.util.string_to_number`. -/
def string_to_number (v : List Nat) : Nat := beNum v

/-- `point_to_ser(P, comp)`: coordinate serialization, via the abstract
point primitives. -/
def point_to_ser {Pt : Type} (P : Prims Pt) (pt : Pt) (comp : Bool) : List Nat :=
  P.pointToSer pt comp

/-- `ser_to_point(Aser)`: `assert Aser[0] in [0x02, 0x03, 0x04]`, then
reconstruct the point (directly for `0x04`, via `ECC_YfromX` otherwise;
both folded into the `deserPoint` primitive). -/
def ser_to_point {Pt : Type} (P : Prims Pt) (aser : List Nat) : Except PyErr Pt :=
  match aser.head? with
  | none => .error .indexError
  | some a =>
    if a = 2 ∨ a = 3 ∨ a = 4 then P.deserPoint aser else .error .assertionError

/-- `EC_KEY.__init__`: the private scalar of a key built from 32 key
bytes. -/
def EC_KEY_secret (k : List Nat) : Nat := string_to_number k

/-- `Hash(x) = sha256(sha256(x))`. -/
def pyHash {Pt : Type} (P : Prims Pt) (x : List Nat) : List Nat :=
  P.sha256 (P.sha256 x)

/-- `hash_160(x) = ripemd160(sha256(x))`. -/
def hash_160 {Pt : Type} (P : Prims Pt) (x : List Nat) : List Nat :=
  P.ripemd160 (P.sha256 x)

/-- `EncodeBase58Check(vchIn)`. -/
def EncodeBase58Check {Pt : Type} (P : Prims Pt) (vchIn : List Nat) :
    Except PyErr (List Nat) :=
  base_encode (vchIn ++ (pyHash P vchIn).take 4) 58

/-- `DecodeBase58Check(psz)`: `None` on checksum mismatch.  (If
`base_decode` could return `None` here the subsequent slicing would raise
`TypeError`; with `length=None` it never does.) -/
def DecodeBase58Check {Pt : Type} (P : Prims Pt) (psz : List Nat) :
    Except PyErr (Option (List Nat)) := do
  match ← base_decode psz none 58 with
  | none => .error .typeError
  | some vchRet =>
    let key := vchRet.take (vchRet.length - 4)
    let csum := vchRet.drop (vchRet.length - 4)
    let hash := pyHash P key
    let cs32 := hash.take 4
    if cs32 ≠ csum then pure none else pure (some key)

/-- `msg_magic(message)`: magic prefix, varint length (as ASCII hex
characters) and the message. -/
def msg_magic (message : List Nat) : Except PyErr (List Nat) := do
  let varint ← var_int message.length
  pure ([24] ++ strCodes "Bitcoin Signed Message:" ++ [10] ++ varint ++ message)

/-- `hash_160_to_bc_address(h160, addrtype, witness_program_version)`. -/
def hash_160_to_bc_address {Pt : Type} (P : Prims Pt) (h160 : List Nat)
    (addrtype : Nat) (witness_program_version : Nat) : Except PyErr (List Nat) :=
  let s := [addrtype]
  let s := if addrtype = ADDRTYPE_P2WPKH then s ++ [witness_program_version] ++ [0] else s
  let s := s ++ h160
  base_encode (s ++ (pyHash P s).take 4) 58

/-- `hash160_to_p2pkh(h160)`. -/
def hash160_to_p2pkh {Pt : Type} (P : Prims Pt) (h160 : List Nat) :
    Except PyErr (List Nat) :=
  hash_160_to_bc_address P h160 ADDRTYPE_P2PKH 1

/-- `public_key_to_p2pkh(public_key)`. -/
def public_key_to_p2pkh {Pt : Type} (P : Prims Pt) (public_key : List Nat) :
    Except PyErr (List Nat) :=
  hash160_to_p2pkh P (hash_160 P public_key)

/-- `pubkey_from_signature(sig, message)`: 65-byte length check, header
byte range check, recovery-id decode, then public-key recovery. -/
def pubkey_from_signature {Pt : Type} (P : Prims Pt) (sig message : List Nat) :
    Except PyErr (Pt × Bool) :=
  if sig.length ≠ 65 then .error (.exception "Wrong encoding") else
  match sig.head? with
  | none => .error .indexError
  | some nV =>
    if nV < 27 ∨ 35 ≤ nV then .error (.exception "Bad encoding") else
    let compressed := if 31 ≤ nV then true else false
    let nV2 := if 31 ≤ nV then nV - 4 else nV
    let recid := nV2 - 27
    do
      let mm ← msg_magic message
      let h := pyHash P mm
      let pt ← P.recoverPt (sig.drop 1) recid h
      pure (pt, compressed)

/-- The `try:` body of `verify_message`: recover the key, compare the
derived address, then verify the digest. -/
def verify_message_inner {Pt : Type} (P : Prims Pt)
    (address sig message : List Nat) : Except PyErr Unit := do
  let pc ← pubkey_from_signature P sig message
  let pubkey := point_to_ser P pc.1 pc.2
  let addr ← public_key_to_p2pkh P pubkey
  if address ≠ addr then .error (.exception "Bad signature") else do
    let mm ← msg_magic message
    let h := pyHash P mm
    let _ ← P.verifyDigest pc.1 (sig.drop 1) h
    pure ()

/-- `verify_message(address, sig, message)`: `True` on success, and every
exception from the body is caught and mapped to `False`. -/
def verify_message {Pt : Type} (P : Prims Pt)
    (address sig message : List Nat) : Bool :=
  match verify_message_inner P address sig message with
  | .ok _ => true
  | .error _ => false

/-- `MySigningKey.sign_number`: the base `ecdsa` signature with `s`
flipped to `order - s` whenever `s > order//2`. -/
def mySigningKey_sign_number {Pt : Type} (P : Prims Pt)
    (secret number : Nat) : Nat × Nat :=
  let rs := P.ecdsaSignNumber secret number
  let r := rs.1
  let s := rs.2
  if s > secpOrder / 2 then (r, secpOrder - s) else (r, s)

/-- `EC_KEY.sign(msg_hash)`: deterministic signing through
`MySigningKey.sign_number`, `sigencode_string` packing, and the final
`assert verify_digest(...)`. -/
def EC_KEY_sign {Pt : Type} (P : Prims Pt) (secret : Nat) (msg_hash : List Nat) :
    Except PyErr (List Nat) :=
  let rs := mySigningKey_sign_number P secret (P.digestToInt msg_hash)
  let signature := number_to_string rs.1 ++ number_to_string rs.2
  match P.verifyDigest (P.mulG secret) signature msg_hash with
  | .ok _ => .ok signature
  | .error e => .error e

/-! ### Minikeys -/

/-- Python 3 semantics of `(c in __b58chars)` where `c` is a one-character
`str` and `__b58chars` is a `bytes` object: membership of a `str` in
`bytes` raises `TypeError` unconditionally. -/
def pyCharInBytes (c : Nat) (b : List Nat) : Except PyErr Bool :=
  .error .typeError

/-- Short-circuiting `all(...)` over a generator that may raise. -/
def pyAll {α : Type} (f : α → Except PyErr Bool) : List α → Except PyErr Bool
  | [] => .ok true
  | a :: t => do
    let b ← f a
    if b then pyAll f t else pure false

/-- `is_minikey(text)` with `text` a `str`: length/sentinel checks, the
alphabet check `all(c in __b58chars for c in text)` (which raises
`TypeError` in Python 3 because each `c` is a `str` while `__b58chars`
is `bytes`), then `ord(sha256(text + '?')[0]) == 0` (which would also
raise `TypeError`, since indexing `bytes` yields an `int`). -/
def is_minikey {Pt : Type} (P : Prims Pt) (text : List Nat) :
    Except PyErr Bool :=
  if text.length < 20 then .ok false
  else if text.head? ≠ some 83 then .ok false
  else do
    let b ← pyAll (fun c => pyCharInBytes c b58chars) text
    if b = false then pure false
    else
      match (P.sha256 (text ++ [63])).head? with
      | none => .error .indexError
      | some _ => .error .typeError

/-- `minikey_to_private_key(text) = sha256(text)`. -/
def minikey_to_private_key {Pt : Type} (P : Prims Pt) (text : List Nat) :
    List Nat :=
  P.sha256 text

/-! ### ECIES decryption (`EC_KEY.decrypt_message`) -/

/-- `b'BIE1'`. -/
def BIE1 : List Nat := [66, 73, 69, 49]

/-- `EC_KEY.decrypt_message(self, encrypted)` for a key with private
scalar `secret`: base64-decode, length check (< 85), magic check,
ephemeral-point parse (`AssertionError` is converted, other errors
propagate), curve validation, ECDH key derivation, MAC comparison
(`InvalidPassword` on mismatch), and only then AES decryption. -/
def decrypt_message {Pt : Type} (P : Prims Pt) (secret : Nat)
    (encTxt : List Nat) : Except PyErr (List Nat) :=
  let encrypted := P.b64decode encTxt
  if encrypted.length < 85 then .error (.exception "invalid ciphertext: length") else
  let magic := encrypted.take 4
  let ephemeral_ser := (encrypted.drop 4).take 33
  let ciphertext := (encrypted.drop 37).take (encrypted.length - 69)
  let mac := encrypted.drop (encrypted.length - 32)
  if magic ≠ BIE1 then .error (.exception "invalid ciphertext: invalid magic bytes") else
  match ser_to_point P ephemeral_ser with
  | .error .assertionError => .error (.exception "invalid ciphertext: invalid ephemeral pubkey")
  | .error e => .error e
  | .ok ephemeral_pubkey =>
    if ¬ (P.pointIsValid ephemeral_pubkey) then
      .error (.exception "invalid ciphertext: invalid ephemeral pubkey")
    else
      let ecdh_key := point_to_ser P (P.pmul secret ephemeral_pubkey) true
      let key := P.sha512 ecdh_key
      let iv := key.take 16
      let key_e := (key.drop 16).take 16
      let key_m := key.drop 32
      if mac ≠ P.hmacSha256 key_m (encrypted.take (encrypted.length - 32)) then
        .error .invalidPassword
      else
        P.aesDecrypt key_e iv ciphertext

/-- Replace only the AES primitive of a `Prims` bundle (used to express
"the cipher is never run": the result is the same for every cipher). -/
def setAes {Pt : Type} (P : Prims Pt)
    (f : List Nat → List Nat → List Nat → Except PyErr (List Nat)) : Prims Pt :=
  ⟨P.sha256, P.sha512, P.ripemd160, P.hmacSha512, P.hmacSha256, P.b64decode,
   f, P.mulG, P.pmul, P.padd, P.pointToSer, P.pointRaw, P.deserPoint,
   P.pointIsValid, P.ecdsaSignNumber, P.recoverPt, P.verifyDigest, P.digestToInt⟩

/-! ### BIP32 -/

/-- `get_pubkeys_from_secret(secret)`: the raw 64-byte public key and the
compressed 33-byte form of `secret·G`. -/
def get_pubkeys_from_secret {Pt : Type} (P : Prims Pt) (secret : List Nat) :
    List Nat × List Nat :=
  let pub := P.mulG (string_to_number secret)
  (P.pointRaw pub, P.pointToSer pub true)

/-- `_CKD_priv(k, c, s, is_prime)`: HMAC-SHA512 child-key step.  Note the
child scalar is reduced modulo the order and returned unconditionally --
there is no zero- or range-check. -/
def CKD_priv_inner {Pt : Type} (P : Prims Pt) (k c s : List Nat)
    (is_prime : Nat) : List Nat × List Nat :=
  let cK := P.pointToSer (P.mulG (string_to_number k)) true
  let data := if is_prime ≠ 0 then 0 :: (k ++ s) else cK ++ s
  let I := P.hmacSha512 c data
  let k_n := number_to_string ((string_to_number (I.take 32) + string_to_number k) % secpOrder)
  let c_n := I.drop 32
  (k_n, c_n)

/-- `CKD_priv(k, c, n)`: serialize the index big-endian via
`bfh(rev_hex(int_to_hex(n, 4)))` and call `_CKD_priv`. -/
def CKD_priv {Pt : Type} (P : Prims Pt) (k c : List Nat) (n : Nat) :
    Except PyErr (List Nat × List Nat) := do
  let h ← int_to_hex n 4
  let r ← rev_hex h
  let s ← bfh r
  pure (CKD_priv_inner P k c s (n &&& BIP32_PRIME))

/-- `_CKD_pub(cK, c, s)`: public child-key step
`left32·G + ser_to_point(cK)`. -/
def CKD_pub_inner {Pt : Type} (P : Prims Pt) (cK c s : List Nat) :
    Except PyErr (List Nat × List Nat) := do
  let I := P.hmacSha512 c (cK ++ s)
  let parent ← ser_to_point P cK
  let pubkey_point := P.padd (P.mulG (string_to_number (I.take 32))) parent
  let cK_n := P.pointToSer pubkey_point true
  let c_n := I.drop 32
  pure (cK_n, c_n)

/-- `CKD_pub(cK, c, n)`: a bare `raise` (i.e. `RuntimeError`) on any
hardened index, else `_CKD_pub` on the big-endian index bytes. -/
def CKD_pub {Pt : Type} (P : Prims Pt) (cK c : List Nat) (n : Nat) :
    Except PyErr (List Nat × List Nat) :=
  if n &&& BIP32_PRIME ≠ 0 then .error .runtimeError
  else do
    let h ← int_to_hex n 4
    let r ← rev_hex h
    let s ← bfh r
    CKD_pub_inner P cK c s

/-- `"%08x" % n` (then `bfh`): zero-padded 8-char lowercase hex. -/
def format8Lower (n : Nat) : List Nat :=
  let s := natToHexMin n
  List.replicate (8 - s.length) 48 ++ s

/-- `"%08X" % n`: zero-padded 8-char uppercase hex. -/
def format8Upper (n : Nat) : List Nat :=
  let s := natToHexMinUpper n
  List.replicate (8 - s.length) 48 ++ s

/-- `xprv_header(xtype) = bfh("%08x" % (XPRV_HEADER + xtype))`. -/
def xprv_header (xtype : Nat) : Except PyErr (List Nat) :=
  bfh (format8Lower (XPRV_HEADER + xtype))

/-- `xpub_header(xtype) = bfh("%08x" % (XPUB_HEADER + xtype))`. -/
def xpub_header (xtype : Nat) : Except PyErr (List Nat) :=
  bfh (format8Lower (XPUB_HEADER + xtype))

/-- `bytes([d])`: raises `ValueError` outside the byte range. -/
def pyBytesSingle (d : Nat) : Except PyErr (List Nat) :=
  if d < 256 then .ok [d] else .error .valueError

/-- `serialize_xprv(xtype, c, k, depth, fingerprint, child_number)`. -/
def serialize_xprv {Pt : Type} (P : Prims Pt) (xtype : Nat) (c k : List Nat)
    (depth : Nat) (fingerprint child_number : List Nat) :
    Except PyErr (List Nat) := do
  let hdr ← xprv_header xtype
  let d ← pyBytesSingle depth
  EncodeBase58Check P (hdr ++ d ++ fingerprint ++ child_number ++ c ++ [0] ++ k)

/-- `serialize_xpub(xtype, c, cK, depth, fingerprint, child_number)`. -/
def serialize_xpub {Pt : Type} (P : Prims Pt) (xtype : Nat) (c cK : List Nat)
    (depth : Nat) (fingerprint child_number : List Nat) :
    Except PyErr (List Nat) := do
  let hdr ← xpub_header xtype
  let d ← pyBytesSingle depth
  EncodeBase58Check P (hdr ++ d ++ fingerprint ++ child_number ++ c ++ cK)

/-- `int('0x' + bh2u(bytes4), 16)`: the big-endian value of the four
header bytes (Python parses the hex text it just produced). -/
def headerValue (bytes4 : List Nat) : Nat := beNum bytes4

/-- `deserialize_xkey(xkey, prv)` with `TESTNET = False`: base58check
decode, 78-byte length check, field slicing, header check (`xtype` must
be `0` on mainnet). -/
def deserialize_xkey {Pt : Type} (P : Prims Pt) (xkey : List Nat) (prv : Bool) :
    Except PyErr (Nat × Nat × List Nat × List Nat × List Nat × List Nat) := do
  match ← DecodeBase58Check P xkey with
  | none => .error .typeError
  | some xk =>
    if xk.length ≠ 78 then .error (.baseException "Invalid length") else
    let depth := xk.getD 4 0
    let fingerprint := (xk.drop 5).take 4
    let child_number := (xk.drop 9).take 4
    let c := (xk.drop 13).take 32
    let header := if prv then XPRV_HEADER else XPUB_HEADER
    let xtype : Int := (headerValue (xk.take 4) : Int) - header
    if xtype ≠ 0 then .error (.baseException "Invalid header") else
    let n := if prv then 33 else 32
    let K_or_k := xk.drop (13 + n)
    pure (xtype.toNat, depth, fingerprint, child_number, c, K_or_k)

/-- `deserialize_xpub`. -/
def deserialize_xpub {Pt : Type} (P : Prims Pt) (xkey : List Nat) :=
  deserialize_xkey P xkey false

/-- `deserialize_xprv`. -/
def deserialize_xprv {Pt : Type} (P : Prims Pt) (xkey : List Nat) :=
  deserialize_xkey P xkey true

/-- `xpub_from_xprv(xprv)`. -/
def xpub_from_xprv {Pt : Type} (P : Prims Pt) (xprv : List Nat) :
    Except PyErr (List Nat) := do
  let (xtype, depth, fingerprint, child_number, c, k) ← deserialize_xprv P xprv
  let cK := (get_pubkeys_from_secret P k).2
  serialize_xpub P xtype c cK depth fingerprint child_number

/-! ### BIP32 path derivation -/

/-- `str.split('/')`-style splitting, keeping empty pieces. -/
def pySplit (sep : Nat) : List Nat → List (List Nat)
  | [] => [[]]
  | c :: t =>
    match pySplit sep t with
    | [] => [[]]
    | h :: r => if c = sep then [] :: h :: r else (c :: h) :: r

/-- Is this ASCII code a decimal digit? -/
def isDigitCode (c : Nat) : Bool := 48 ≤ c && c ≤ 57

/-- Decimal value of a digit string (the accumulator of `int()`). -/
def pyIntVal (s : List Nat) : Nat :=
  s.foldl (fun acc c => acc * 10 + (c - 48)) 0

/-- Modelled from the spec: CPython `int()` on the path pieces — parses a
nonempty string of decimal digits, raising `ValueError` otherwise (signs,
whitespace and underscores never occur in derivation paths). -/
def pyInt (s : List Nat) : Except PyErr Nat :=
  if s ≠ [] ∧ s.all isDigitCode then .ok (pyIntVal s)
  else .error .valueError

/-- `sequence.startswith(branch)`. -/
def startswith (s pre : List Nat) : Bool := pre.isPrefixOf s

/-- The derivation loop of `bip32_private_derivation`: skip empty pieces;
parse the index (with optional trailing `'` adding the hardened bit);
step with `CKD_priv`; track the depth and the last `(parent_k, i)` pair
(the loop variables read after the loop; `none` models them unbound). -/
def bip32PrivLoop {Pt : Type} (P : Prims Pt) :
    List (List Nat) → List Nat → List Nat → Nat → Option (List Nat × Nat) →
    Except PyErr (List Nat × List Nat × Nat × Option (List Nat × Nat))
  | [], k, c, depth, last => .ok (k, c, depth, last)
  | n :: rest, k, c, depth, last =>
    if n = [] then bip32PrivLoop P rest k c depth last
    else do
      let i ←
        if n.getLast? = some 39 then do
          let m ← pyInt n.dropLast
          pure (m + BIP32_PRIME)
        else pyInt n
      let kc ← CKD_priv P k c i
      bip32PrivLoop P rest kc.1 kc.2 (depth + 1) (some (k, i))

/-- `bip32_private_derivation(xprv, branch, sequence)`. -/
def bip32_private_derivation {Pt : Type} (P : Prims Pt)
    (xprv branch sequence : List Nat) : Except PyErr (List Nat × List Nat) := do
  if ¬ startswith sequence branch then .error .assertionError else
  if branch = sequence then do
    let xpub ← xpub_from_xprv P xprv
    pure (xprv, xpub)
  else do
    let (xtype, depth, _fingerprint, _child_number, c, k) ← deserialize_xprv P xprv
    let seq2 := sequence.drop branch.length
    let (k2, c2, depth2, last) ← bip32PrivLoop P (pySplit 47 seq2) k c depth none
    match last with
    | none => .error .nameError
    | some (parent_k, i) =>
      let parent_cK := (get_pubkeys_from_secret P parent_k).2
      let fingerprint2 := (hash_160 P parent_cK).take 4
      let child_number2 ← bfh (format8Upper i)
      let cK := (get_pubkeys_from_secret P k2).2
      let xpub ← serialize_xpub P xtype c2 cK depth2 fingerprint2 child_number2
      let xprv2 ← serialize_xprv P xtype c2 k2 depth2 fingerprint2 child_number2
      pure (xprv2, xpub)

/-- The derivation loop of `bip32_public_derivation` (non-hardened
parsing only: `int(n)` directly). -/
def bip32PubLoop {Pt : Type} (P : Prims Pt) :
    List (List Nat) → List Nat → List Nat → Nat → Option (List Nat × Nat) →
    Except PyErr (List Nat × List Nat × Nat × Option (List Nat × Nat))
  | [], cK, c, depth, last => .ok (cK, c, depth, last)
  | n :: rest, cK, c, depth, last =>
    if n = [] then bip32PubLoop P rest cK c depth last
    else do
      let i ← pyInt n
      let r ← CKD_pub P cK c i
      bip32PubLoop P rest r.1 r.2 (depth + 1) (some (cK, i))

/-- `bip32_public_derivation(xpub, branch, sequence)`. -/
def bip32_public_derivation {Pt : Type} (P : Prims Pt)
    (xpub branch sequence : List Nat) : Except PyErr (List Nat) := do
  let (xtype, depth, _fingerprint, _child_number, c, cK) ← deserialize_xpub P xpub
  if ¬ startswith sequence branch then .error .assertionError else
  let seq2 := sequence.drop branch.length
  let (cK2, c2, depth2, last) ← bip32PubLoop P (pySplit 47 seq2) cK c depth none
  match last with
  | none => .error .nameError
  | some (parent_cK, i) =>
    let fingerprint2 := (hash_160 P parent_cK).take 4
    let child_number2 ← bfh (format8Upper i)
    serialize_xpub P xtype c2 cK2 depth2 fingerprint2 child_number2

/-- A concrete primitive bundle over the one-point group, used to
instantiate hypotheses in witnesses. -/
def PrimsUnit : Prims Unit :=
  ⟨fun _ => List.replicate 32 0,
   fun _ => List.replicate 64 0,
   fun _ => List.replicate 20 0,
   fun _ _ => List.replicate 64 0,
   fun _ _ => List.replicate 32 0,
   id,
   fun _ _ _ => .ok [],
   fun _ => (),
   fun _ _ => (),
   fun _ _ => (),
   fun _ _ => 2 :: List.replicate 32 0,
   fun _ => List.replicate 64 0,
   fun _ => .ok (),
   fun _ => true,
   fun _ _ => (1, 1),
   fun _ _ _ => .ok (),
   fun _ _ _ => .ok (),
   fun _ => 0⟩

/-! ### C5: child-scalar range behaviour of `_CKD_priv` -/

/-- Primitive bundle whose HMAC-SHA512 returns `order - 1` in its left
half, driving the derived child scalar to zero. -/
def PrimsZeroScalar : Prims Unit :=
  ⟨fun _ => List.replicate 32 0,
   fun _ => List.replicate 64 0,
   fun _ => List.replicate 20 0,
   fun _ _ => number_to_string (secpOrder - 1) ++ List.replicate 32 0,
   fun _ _ => List.replicate 32 0,
   id,
   fun _ _ _ => .ok [],
   fun _ => (),
   fun _ _ => (),
   fun _ _ => (),
   fun _ _ => 2 :: List.replicate 32 0,
   fun _ => List.replicate 64 0,
   fun _ => .ok (),
   fun _ => true,
   fun _ _ => (1, 1),
   fun _ _ _ => .ok (),
   fun _ _ _ => .ok (),
   fun _ => 0⟩

/-! ### C9 scaffolding -/

/-- The compressed public key of the scalar encoded by key bytes `k`. -/
def serOf {Pt : Type} (P : Prims Pt) (k : List Nat) : List Nat :=
  P.pointToSer (P.mulG (string_to_number k)) true

/-- Number of nonempty pieces in a split path (= number of derivation
steps the loop performs). -/
def countNE (ps : List (List Nat)) : Nat :=
  (ps.filter (fun p => ¬ p.isEmpty)).length

/-- Map the private loop's `(parent_k, i)` tracking state to the public
loop's `(parent_cK, i)` state. -/
def lastMap {Pt : Type} (P : Prims Pt) :
    Option (List Nat × Nat) → Option (List Nat × Nat)
  | none => none
  | some (pk, i) => some (serOf P pk, i)

theorem toDigitsLSBGo_congr (base : Nat) :
    ∀ f1 f2 n, n ≤ f1 → n ≤ f2 →
      toDigitsLSBGo base f1 n = toDigitsLSBGo base f2 n := by
  intro f1
  induction f1 with
  | zero =>
    intro f2 n h1 _
    interval_cases n
    cases f2 with
    | zero => rfl
    | succ m =>
      simp only [toDigitsLSBGo]
      rw [if_neg]; omega
  | succ f ih =>
    intro f2 n h1 h2
    cases f2 with
    | zero =>
      interval_cases n
      simp only [toDigitsLSBGo]
      rw [if_neg]; omega
    | succ m =>
      simp only [toDigitsLSBGo]
      by_cases hc : 2 ≤ base ∧ base ≤ n
      · rw [if_pos hc, if_pos hc]
        have hlt : n / base < n := Nat.div_lt_self (by omega) (by omega)
        rw [ih m (n / base) (by omega) (by omega)]
      · rw [if_neg hc, if_neg hc]

/-- Unfolding equation for `toDigitsLSB`, mirroring the source loop. -/
theorem toDigitsLSB_eq (base n : Nat) :
    toDigitsLSB base n =
      if 2 ≤ base ∧ base ≤ n then n % base :: toDigitsLSB base (n / base)
      else [n] := by
  unfold toDigitsLSB
  cases hn : n with
  | zero =>
    simp only [toDigitsLSBGo]
    rw [if_neg]; omega
  | succ m =>
    simp only [toDigitsLSBGo]
    by_cases hc : 2 ≤ base ∧ base ≤ m + 1
    · rw [if_pos hc, if_pos hc]
      have hlt : (m + 1) / base < m + 1 := Nat.div_lt_self (by omega) (by omega)
      rw [toDigitsLSBGo_congr base m ((m+1)/base) ((m+1)/base) (by omega) (by omega)]
    · rw [if_neg hc, if_neg hc]

example : b58chars.length = 58 := by decide
example : b43chars.length = 43 := by decide

example : base_encode [0, 1] 58 = .ok [49, 50] := by decide
example : base_decode [49, 50] (some 2) 58 = .ok (some [0, 1]) := by decide
example : base_encode [0] 58 = .ok [49, 49] := by decide
example : base_decode [49, 49] (some 1) 58 = .ok none := by decide

/-! ### Digit lemmas for the base-N codec -/

theorem toDigitsLSB_ne_nil (base n : Nat) : toDigitsLSB base n ≠ [] := by
  rw [toDigitsLSB_eq]
  split <;> simp

theorem toDigitsLSB_mem_lt (base : Nat) (hb : 2 ≤ base) :
    ∀ n, ∀ d ∈ toDigitsLSB base n, d < base := by
  intro n
  induction n using Nat.strong_induction_on with
  | _ n ih =>
    intro d hd
    rw [toDigitsLSB_eq] at hd
    by_cases hc : 2 ≤ base ∧ base ≤ n
    · rw [if_pos hc] at hd
      rcases List.mem_cons.mp hd with h | h
      · subst h; exact Nat.mod_lt _ (by omega)
      · exact ih (n / base) (Nat.div_lt_self (by omega) (by omega)) d h
    · rw [if_neg hc] at hd
      simp at hd
      omega

theorem ofDigits_toDigits (base : Nat) (hb : 2 ≤ base) :
    ∀ n, ofDigitsLSB base (toDigitsLSB base n) = n := by
  intro n
  induction n using Nat.strong_induction_on with
  | _ n ih =>
    rw [toDigitsLSB_eq]
    by_cases hc : 2 ≤ base ∧ base ≤ n
    · rw [if_pos hc]
      show n % base + base * ofDigitsLSB base (toDigitsLSB base (n / base)) = n
      rw [ih (n / base) (Nat.div_lt_self (by omega) (by omega))]
      exact Nat.mod_add_div n base
    · rw [if_neg hc]
      simp [ofDigitsLSB]

theorem toDigitsLSB_getLast?_ne_zero (base : Nat) (hb : 2 ≤ base) :
    ∀ n, n ≠ 0 → ∀ d, (toDigitsLSB base n).getLast? = some d → d ≠ 0 := by
  intro n
  induction n using Nat.strong_induction_on with
  | _ n ih =>
    intro hn d hd
    rw [toDigitsLSB_eq] at hd
    by_cases hc : 2 ≤ base ∧ base ≤ n
    · rw [if_pos hc] at hd
      rcases hrec : toDigitsLSB base (n / base) with _ | ⟨a, t⟩
      · exact absurd hrec (toDigitsLSB_ne_nil base (n / base))
      · rw [hrec, List.getLast?_cons_cons] at hd
        rw [← hrec] at hd
        exact ih (n / base) (Nat.div_lt_self (by omega) (by omega))
          (Nat.div_pos hc.2 (by omega)).ne' d hd
    · rw [if_neg hc] at hd
      simp at hd
      omega

theorem ofDigits_pos (base : Nat) (hb : 1 ≤ base) :
    ∀ ds : List Nat, ∀ d, ds.getLast? = some d → d ≠ 0 →
      0 < ofDigitsLSB base ds := by
  intro ds
  induction ds with
  | nil => intro d hd; simp at hd
  | cons a t ih =>
    intro d hd hdne
    cases t with
    | nil =>
      simp at hd
      simp [ofDigitsLSB]
      omega
    | cons b t' =>
      rw [List.getLast?_cons_cons] at hd
      have h1 : 0 < ofDigitsLSB base (b :: t') := ih d hd hdne
      show 0 < a + base * ofDigitsLSB base (b :: t')
      have h2 : 0 < base * ofDigitsLSB base (b :: t') := Nat.mul_pos (by omega) h1
      omega

theorem toDigits_ofDigits (base : Nat) (hb : 2 ≤ base) :
    ∀ ds : List Nat, ds ≠ [] → (∀ d ∈ ds, d < base) →
      (∀ d, ds.getLast? = some d → d ≠ 0) →
      toDigitsLSB base (ofDigitsLSB base ds) = ds := by
  intro ds
  induction ds with
  | nil => intro h; exact absurd rfl h
  | cons a t ih =>
    intro _ hlt hlast
    cases t with
    | nil =>
      have ha : a < base := hlt a (by simp)
      have hane : a ≠ 0 := hlast a (by simp)
      simp only [ofDigitsLSB]
      rw [toDigitsLSB_eq, if_neg (by omega)]
      simp
    | cons b t' =>
      have hpos : 0 < ofDigitsLSB base (b :: t') := by
        rcases hlast2 : (b :: t').getLast? with _ | d
        · simp at hlast2
        · exact ofDigits_pos base (by omega) (b :: t') d hlast2
            (hlast d (by rw [List.getLast?_cons_cons]; exact hlast2))
      have ha : a < base := hlt a (by simp)
      have hge : base ≤ a + base * ofDigitsLSB base (b :: t') := by
        calc base = base * 1 := by omega
        _ ≤ base * ofDigitsLSB base (b :: t') := Nat.mul_le_mul_left base hpos
        _ ≤ a + base * ofDigitsLSB base (b :: t') := by omega
      have hmod : (a + base * ofDigitsLSB base (b :: t')) % base = a := by
        rw [Nat.add_mul_mod_self_left, Nat.mod_eq_of_lt ha]
      have hdiv : (a + base * ofDigitsLSB base (b :: t')) / base
          = ofDigitsLSB base (b :: t') := by
        rw [Nat.add_mul_div_left _ _ (by omega), Nat.div_eq_of_lt ha, Nat.zero_add]
      show toDigitsLSB base (a + base * ofDigitsLSB base (b :: t')) = a :: b :: t'
      rw [toDigitsLSB_eq, if_pos ⟨by omega, hge⟩, hmod, hdiv,
        ih (by simp) (fun d hd => hlt d (by simp [hd]))
          (fun d hd => hlast d (by rw [List.getLast?_cons_cons]; exact hd))]

/-! ### Leading-zero compression lemmas -/

theorem countLeading_le (x : Nat) : ∀ l : List Nat, countLeading x l ≤ l.length := by
  intro l
  induction l with
  | nil => simp [countLeading]
  | cons c t ih =>
    simp only [countLeading]
    split <;> simp <;> omega

theorem countLeading_decomp (x : Nat) :
    ∀ l : List Nat, l = List.replicate (countLeading x l) x ++ l.drop (countLeading x l) := by
  intro l
  induction l with
  | nil => rfl
  | cons c t ih =>
    simp only [countLeading]
    by_cases hc : c = x
    · rw [if_pos hc, List.replicate_succ]
      subst hc
      conv_lhs => rw [ih]
      simp
    · rw [if_neg hc]
      simp

theorem countLeading_drop_head (x : Nat) :
    ∀ l : List Nat, countLeading x l < l.length →
      ∀ c, (l.drop (countLeading x l)).head? = some c → c ≠ x := by
  intro l
  induction l with
  | nil => simp
  | cons a t ih =>
    intro hlt c hc
    simp only [countLeading] at hlt hc ⊢
    by_cases ha : a = x
    · rw [if_pos ha] at hlt hc
      simp only [List.drop_succ_cons] at hc
      exact ih (by simpa using hlt) c hc
    · rw [if_neg ha] at hc
      simp at hc
      subst hc
      exact ha

theorem countLeading_replicate_append (x : Nat) (p : Nat) (l : List Nat) :
    countLeading x (List.replicate p x ++ l) = p + countLeading x l := by
  induction p with
  | zero => simp
  | succ q ih =>
    rw [List.replicate_succ, List.cons_append]
    show (if x = x then countLeading x (List.replicate q x ++ l) + 1 else 0)
      = (q + 1) + countLeading x l
    rw [if_pos rfl, ih]
    omega

theorem countLeading_cons_ne (x c : Nat) (t : List Nat) (h : c ≠ x) :
    countLeading x (c :: t) = 0 := by
  simp [countLeading, h]

theorem ofDigits_append_zeros (base : Nat) :
    ∀ (l : List Nat) (p : Nat),
      ofDigitsLSB base (l ++ List.replicate p 0) = ofDigitsLSB base l := by
  intro l
  induction l with
  | nil =>
    intro p
    induction p with
    | zero => rfl
    | succ q ih =>
      rw [List.nil_append] at ih ⊢
      rw [List.replicate_succ]
      simp only [ofDigitsLSB]
      rw [ih]
      simp [ofDigitsLSB]
  | cons a t ih =>
    intro p
    simp only [List.cons_append, ofDigitsLSB, List.append_eq]
    rw [ih]

/-! ### `base_decode` value lemmas -/

theorem decodeLongValue_append (chars : List Nat) (base : Nat) :
    ∀ l1 l2, decodeLongValue chars base (l1 ++ l2) =
      decodeLongValue chars base l1
        + (base : Int) ^ l1.length * decodeLongValue chars base l2 := by
  intro l1
  induction l1 with
  | nil => intro l2; simp [decodeLongValue]
  | cons c t ih =>
    intro l2
    simp only [List.cons_append, decodeLongValue, List.length_cons, List.append_eq]
    rw [ih]
    ring

theorem decodeLongValue_map (chars : List Nat) (base : Nat) :
    ∀ ds : List Nat, (∀ d ∈ ds, pyFind chars (chars.getD d 0) = d) →
      decodeLongValue chars base (ds.map (fun d => chars.getD d 0))
        = (ofDigitsLSB base ds : Int) := by
  intro ds
  induction ds with
  | nil => intro _; rfl
  | cons d t ih =>
    intro hfind
    simp only [List.map_cons, decodeLongValue, ofDigitsLSB]
    rw [hfind d (by simp), ih (fun d hd => hfind d (by simp [hd]))]
    push_cast
    ring

theorem decodeLongValue_replicate (chars : List Nat) (base : Nat) (c0 : Nat)
    (h0 : pyFind chars c0 = 0) :
    ∀ p, decodeLongValue chars base (List.replicate p c0) = 0 := by
  intro p
  induction p with
  | zero => rfl
  | succ q ih =>
    rw [List.replicate_succ]
    simp only [decodeLongValue]
    rw [h0, ih]
    ring

/-- Core round-trip fact for `base_encode`/`base_decode` over an arbitrary
alphabet: for a byte buffer with at least one nonzero byte, decoding the
encoded digit string recovers the original value and the original
leading-zero count. -/
theorem codec_core_roundtrip (chars : List Nat) (base : Nat) (hb : 2 ≤ base)
    (hfind : ∀ d, d < base → pyFind chars (chars.getD d 0) = d)
    (hfind0 : pyFind chars (chars.headD 0) = 0)
    (hne : ∀ d, 0 < d → d < base → chars.getD d 0 ≠ chars.headD 0)
    (v : List Nat) (hv : ∀ b ∈ v, b < 256) (hnz : ∃ b ∈ v, b ≠ 0) :
    decodeLongValue chars base
        (((toDigitsLSB base (ofDigitsLSB 256 v.reverse)).map (fun d => chars.getD d 0)
          ++ List.replicate (countLeading 0 v) (chars.headD 0)).reverse).reverse
      = (ofDigitsLSB 256 v.reverse : Int) ∧
    toDigitsLSB 256 (ofDigitsLSB 256 v.reverse)
        ++ List.replicate
          (countLeading (chars.headD 0)
            (((toDigitsLSB base (ofDigitsLSB 256 v.reverse)).map (fun d => chars.getD d 0)
              ++ List.replicate (countLeading 0 v) (chars.headD 0)).reverse)) 0
      = v.reverse := by
  set c0 := chars.headD 0 with hc0
  set p := countLeading 0 v with hp
  set n := ofDigitsLSB 256 v.reverse with hn
  have hdecomp : v = List.replicate p 0 ++ v.drop p := countLeading_decomp 0 v
  have hple : p ≤ v.length := countLeading_le 0 v
  have hplt : p < v.length := by
    rcases Nat.lt_or_ge p v.length with h | h
    · exact h
    · exfalso
      have hpv : p = v.length := by omega
      have hvrep : v = List.replicate p 0 := by
        have : v.drop p = [] := by
          apply List.eq_nil_of_length_eq_zero
          rw [List.length_drop]
          omega
        rw [this, List.append_nil] at hdecomp
        exact hdecomp
      rcases hnz with ⟨b, hbv, hbne⟩
      rw [hvrep] at hbv
      exact hbne (List.eq_of_mem_replicate hbv)
  set rest := v.drop p with hrest
  have hrest_ne : rest ≠ [] := by
    intro hnil
    have := congrArg List.length hnil
    rw [List.length_drop] at this
    simp at this
    omega
  have hrest_head : ∀ c, rest.head? = some c → c ≠ 0 :=
    countLeading_drop_head 0 v hplt
  have hrest_mem : ∀ b ∈ rest, b < 256 := by
    intro b hb'
    exact hv b (List.mem_of_mem_drop hb')
  have hvrev : v.reverse = rest.reverse ++ List.replicate p 0 := by
    conv_lhs => rw [hdecomp]
    rw [List.reverse_append, List.reverse_replicate]
  have hnval : n = ofDigitsLSB 256 rest.reverse := by
    rw [hn, hvrev, ofDigits_append_zeros]
  obtain ⟨ch, rt, hrestc⟩ : ∃ ch rt, rest = ch :: rt := by
    cases hr : rest with
    | nil => exact absurd hr hrest_ne
    | cons a t => exact ⟨a, t, rfl⟩
  have hch : ch ≠ 0 := hrest_head ch (by rw [hrestc]; rfl)
  have hrevlast : rest.reverse.getLast? = some ch := by
    rw [List.getLast?_reverse, hrestc]
    rfl
  have hnpos : 0 < n := by
    rw [hnval]
    exact ofDigits_pos 256 (by omega) rest.reverse ch hrevlast hch
  have hdig256 : toDigitsLSB 256 n = rest.reverse := by
    rw [hnval]
    apply toDigits_ofDigits 256 (by omega)
    · simp [hrestc]
    · intro d hd
      exact hrest_mem d (List.mem_reverse.mp hd)
    · intro d hd
      rw [hrevlast] at hd
      cases hd
      exact hch
  -- digits of n in the encoding base
  set ds := toDigitsLSB base n with hds
  have hds_ne : ds ≠ [] := toDigitsLSB_ne_nil base n
  have hds_lt : ∀ d ∈ ds, d < base := toDigitsLSB_mem_lt base hb n
  have hds_last : ∀ d, ds.getLast? = some d → d ≠ 0 :=
    toDigitsLSB_getLast?_ne_zero base hb n (by omega)
  -- the encoded string, un-reversed
  rw [List.reverse_reverse]
  constructor
  · rw [decodeLongValue_append, decodeLongValue_map chars base ds
      (fun d hd => hfind d (hds_lt d hd)),
      decodeLongValue_replicate chars base c0 hfind0]
    rw [ofDigits_toDigits base hb n]
    ring
  · -- leading-pad count of the encoded string equals p
    obtain ⟨dL, dt, hdsrev⟩ : ∃ dL dt, ds.reverse = dL :: dt := by
      cases hr : ds.reverse with
      | nil =>
        exfalso
        exact hds_ne (by simpa using congrArg List.reverse hr)
      | cons a t => exact ⟨a, t, rfl⟩
    have hdL_mem : dL ∈ ds := by
      rw [← List.mem_reverse, hdsrev]
      simp
    have hdL_last : ds.getLast? = some dL := by
      rw [← List.head?_reverse, hdsrev]
      rfl
    have hdL : chars.getD dL 0 ≠ c0 :=
      hne dL (Nat.pos_of_ne_zero (hds_last dL hdL_last)) (hds_lt dL hdL_mem)
    have hmaprev : (ds.map (fun d => chars.getD d 0)).reverse
        = (chars.getD dL 0) :: dt.map (fun d => chars.getD d 0) := by
      rw [← List.map_reverse, hdsrev, List.map_cons]
    rw [List.reverse_append, List.reverse_replicate, hmaprev,
      countLeading_replicate_append,
      countLeading_cons_ne _ _ _ hdL, hdig256, hvrev, Nat.add_zero]

theorem b58find : ∀ d < 58, pyFind b58chars (b58chars.getD d 0) = (d : Int) := by decide

theorem b58find0 : pyFind b58chars (b58chars.headD 0) = 0 := by decide

theorem b58ne : ∀ d < 58, 0 < d → b58chars.getD d 0 ≠ b58chars.headD 0 := by decide

theorem b43find : ∀ d < 43, pyFind b43chars (b43chars.getD d 0) = (d : Int) := by decide

theorem b43find0 : pyFind b43chars (b43chars.headD 0) = 0 := by decide

theorem b43ne : ∀ d < 43, 0 < d → b43chars.getD d 0 ≠ b43chars.headD 0 := by decide

/-- C6 counterexample: for the all-zero buffer `b"\x00"` the round-trip
fails: it encodes to `"11"`, which decodes (with expected length 1) to
`None`, not to the original byte. -/
theorem c6_counterexample :
    base_encode [0] 58 = .ok [49, 49] ∧
    base_decode [49, 49] (some 1) 58 = .ok none ∧
    (base_encode [0] 58).bind (fun e => base_decode e (some 1) 58)
      ≠ .ok (some [0]) := by decide

/-- General encode/decode round-trip for buffers with a nonzero byte,
with or without an expected length. -/
theorem base_roundtrip_gen :
    ∀ (v : List Nat) (base : Nat) (length : Option Nat),
      (base = 58 ∨ base = 43) →
      (∀ b ∈ v, b < 256) → (∃ b ∈ v, b ≠ 0) →
      (length = none ∨ length = some v.length) →
      (base_encode v base).bind (fun e => base_decode e length base)
        = .ok (some v) := by
  intro v base length hbase hv hnz hlenopt
  have hcore :
      decodeLongValue (if base = 43 then b43chars else b58chars) base
          (((toDigitsLSB base (ofDigitsLSB 256 v.reverse)).map
              (fun d => (if base = 43 then b43chars else b58chars).getD d 0)
            ++ List.replicate (countLeading 0 v)
              ((if base = 43 then b43chars else b58chars).headD 0)).reverse).reverse
        = (ofDigitsLSB 256 v.reverse : Int) ∧
      toDigitsLSB 256 (ofDigitsLSB 256 v.reverse)
          ++ List.replicate
            (countLeading ((if base = 43 then b43chars else b58chars).headD 0)
              (((toDigitsLSB base (ofDigitsLSB 256 v.reverse)).map
                  (fun d => (if base = 43 then b43chars else b58chars).getD d 0)
                ++ List.replicate (countLeading 0 v)
                  ((if base = 43 then b43chars else b58chars).headD 0)).reverse)) 0
        = v.reverse := by
    rcases hbase with hb | hb <;> subst hb
    · rw [if_neg (by norm_num)]
      exact codec_core_roundtrip b58chars 58 (by norm_num)
        (fun d hd => b58find d hd) b58find0
        (fun d hd0 hd => b58ne d hd hd0) v hv hnz
    · rw [if_pos rfl]
      exact codec_core_roundtrip b43chars 43 (by norm_num)
        (fun d hd => b43find d hd) b43find0
        (fun d hd0 hd => b43ne d hd hd0) v hv hnz
  have hbcond : ¬ ¬ (base = 58 ∨ base = 43) := not_not_intro hbase
  simp only [base_encode, base_decode, if_neg hbcond]
  simp only [Except.bind]
  rw [hcore.1]
  rw [if_neg (by omega)]
  rw [Int.toNat_natCast]
  have hlen : (toDigitsLSB 256 (ofDigitsLSB 256 v.reverse)
      ++ List.replicate
        (countLeading ((if base = 43 then b43chars else b58chars).headD 0)
          (((toDigitsLSB base (ofDigitsLSB 256 v.reverse)).map
              (fun d => (if base = 43 then b43chars else b58chars).getD d 0)
            ++ List.replicate (countLeading 0 v)
              ((if base = 43 then b43chars else b58chars).headD 0)).reverse)) 0).length
      = v.length := by
    rw [hcore.2, List.length_reverse]
  rcases hlenopt with hl | hl <;> subst hl
  · simp only []
    rw [hcore.2, List.reverse_reverse]
  · simp only []
    rw [if_neg (by rw [hlen]; simp)]
    rw [hcore.2, List.reverse_reverse]

/-- C6 (amended): the encode/decode round-trip
`base_decode(base_encode(b, base), len(b), base) == b` holds for both
bases for every byte buffer `b` that contains at least one nonzero byte
(all-zero buffers, including the empty one, gain one extra zero digit on
encode and therefore fail the decode length check). -/
theorem c6_roundtrip :
    ∀ (v : List Nat) (base : Nat), (base = 58 ∨ base = 43) →
      (∀ b ∈ v, b < 256) → (∃ b ∈ v, b ≠ 0) →
      (base_encode v base).bind (fun e => base_decode e (some v.length) base)
        = .ok (some v) := by
  intro v base hbase hv hnz
  exact base_roundtrip_gen v base (some v.length) hbase hv hnz (Or.inr rfl)

/-- C6 witness: concrete round-trip instance at `b"\x00\x01\x02"`, base 58. -/
theorem c6_roundtrip_witness :
    (base_encode [0, 1, 2] 58).bind (fun e => base_decode e (some 3) 58)
      = .ok (some [0, 1, 2]) :=
  c6_roundtrip [0, 1, 2] 58 (Or.inl rfl) (by decide) (by decide)

/-- C2: `base_decode` does **not** reject strings containing characters
outside the alphabet.  `"a!"` contains `'!'` (byte 33), which is not in
the 58-symbol alphabet, yet decoding succeeds and returns the bytes
`[7, 121]` (the `-1` produced by `find` for `'!'` is silently summed into
the accumulated value). -/
theorem c2_invalid_char_accepted :
    base_decode [97, 33] none 58 = .ok (some [7, 121]) ∧
    (33 ∈ b58chars) = False ∧ 97 ∈ b58chars := by decide

/-! ### Hex success lemmas -/

theorem hexCodeLower_valid : ∀ d < 16, isHexDigitCode (hexCodeLower d) = true := by decide

theorem hexCodeUpper_valid : ∀ d < 16, isHexDigitCode (hexCodeUpper d) = true := by decide

theorem natToHexMin_valid (n : Nat) :
    ∀ c ∈ natToHexMin n, isHexDigitCode c = true := by
  intro c hc
  unfold natToHexMin at hc
  rw [List.mem_reverse] at hc
  obtain ⟨d, hd, hdc⟩ := List.mem_map.mp hc
  subst hdc
  exact hexCodeLower_valid d (toDigitsLSB_mem_lt 16 (by omega) n d hd)

theorem natToHexMinUpper_valid (n : Nat) :
    ∀ c ∈ natToHexMinUpper n, isHexDigitCode c = true := by
  intro c hc
  unfold natToHexMinUpper at hc
  rw [List.mem_reverse] at hc
  obtain ⟨d, hd, hdc⟩ := List.mem_map.mp hc
  subst hdc
  exact hexCodeUpper_valid d (toDigitsLSB_mem_lt 16 (by omega) n d hd)

theorem toDigitsLSB_length_le (base : Nat) (hb : 2 ≤ base) :
    ∀ k n, 1 ≤ k → n < base ^ k → (toDigitsLSB base n).length ≤ k := by
  intro k
  induction k with
  | zero => omega
  | succ j ih =>
    intro n _ hn
    rw [toDigitsLSB_eq]
    by_cases hc : 2 ≤ base ∧ base ≤ n
    · rw [if_pos hc]
      have hj : 1 ≤ j := by
        by_contra hj0
        have : j = 0 := by omega
        subst this
        simp [pow_succ, pow_zero] at hn
        omega
      have hdiv : n / base < base ^ j := by
        rw [Nat.div_lt_iff_lt_mul (by omega)]
        calc n < base ^ (j + 1) := hn
        _ = base ^ j * base := by ring
      have := ih (n / base) hj hdiv
      simp only [List.length_cons]
      omega
    · rw [if_neg hc]
      simp

theorem natToHexMin_length_le (n k : Nat) (hk : 1 ≤ k) (hn : n < 16 ^ k) :
    (natToHexMin n).length ≤ k := by
  unfold natToHexMin
  rw [List.length_reverse, List.length_map]
  exact toDigitsLSB_length_le 16 (by omega) k n hk hn

/-- `bfh` succeeds on an even-length string of hex digit characters, and
the resulting bytes are genuine bytes, one per digit pair. -/
theorem bfh_ok : ∀ (m : Nat) (s : List Nat), s.length ≤ m →
    (∀ c ∈ s, isHexDigitCode c = true) → s.length % 2 = 0 →
    ∃ bs, bfh s = .ok bs ∧ bs.length = s.length / 2 ∧ ∀ b ∈ bs, b < 256 := by
  intro m
  induction m with
  | zero =>
    intro s hlen _ _
    have : s = [] := List.eq_nil_of_length_eq_zero (by omega)
    subst this
    exact ⟨[], rfl, by simp, by simp⟩
  | succ m ih =>
    intro s hlen hvalid heven
    match s with
    | [] => exact ⟨[], rfl, by simp, by simp⟩
    | [c] => simp at heven
    | c1 :: c2 :: rest =>
      have h1 : isHexDigitCode c1 = true := hvalid c1 (by simp)
      have h2 : isHexDigitCode c2 = true := hvalid c2 (by simp)
      have hrlen : rest.length ≤ m := by
        simp at hlen
        omega
      obtain ⟨bs, hbs, hbslen, hbsmem⟩ := ih rest hrlen
        (fun c hc => hvalid c (by simp [hc]))
        (by simp at heven ⊢; omega)
      refine ⟨(hexVal c1 * 16 + hexVal c2) :: bs, ?_, ?_, ?_⟩
      · unfold bfh
        rw [if_pos (by rw [h1, h2]; rfl), hbs]
      · simp [hbslen]
        omega
      · intro b hb
        rcases List.mem_cons.mp hb with h | h
        · subst h
          have hv1 : hexVal c1 < 16 := by
            unfold isHexDigitCode at h1
            unfold hexVal
            simp at h1
            split <;> try split
            all_goals omega
          have hv2 : hexVal c2 < 16 := by
            unfold isHexDigitCode at h2
            unfold hexVal
            simp at h2
            split <;> try split
            all_goals omega
          omega
        · exact hbsmem b h

theorem bh2u_length (bs : List Nat) : (bh2u bs).length = 2 * bs.length := by
  induction bs with
  | nil => rfl
  | cons b t ih =>
    unfold bh2u at ih ⊢
    simp only [List.bind, List.map_cons, List.join] at ih ⊢
    simp at ih ⊢
    omega

theorem bh2u_valid (bs : List Nat) (hbs : ∀ b ∈ bs, b < 256) :
    ∀ c ∈ bh2u bs, isHexDigitCode c = true := by
  induction bs with
  | nil => simp [bh2u]
  | cons b t ih =>
    intro c hc
    unfold bh2u at hc
    simp only [List.bind, List.map_cons, List.join, List.cons_append] at hc
    have hb : b < 256 := hbs b (by simp)
    rcases List.mem_cons.mp hc with h | h
    · subst h
      exact hexCodeLower_valid (b / 16) (by omega)
    · rcases List.mem_cons.mp h with h' | h'
      · subst h'
        exact hexCodeLower_valid (b % 16) (by omega)
      · exact ih (fun x hx => hbs x (by simp [hx])) c (by
          unfold bh2u
          simpa using h')

/-- `rev_hex` succeeds on an even-length valid hex string and produces
another even-length valid hex string. -/
theorem rev_hex_ok (s : List Nat) (hvalid : ∀ c ∈ s, isHexDigitCode c = true)
    (heven : s.length % 2 = 0) :
    ∃ t, rev_hex s = .ok t ∧ (∀ c ∈ t, isHexDigitCode c = true) ∧
      t.length % 2 = 0 := by
  obtain ⟨bs, hbs, hbslen, hbsmem⟩ := bfh_ok s.length s (le_refl _) hvalid heven
  refine ⟨bh2u bs.reverse, ?_, ?_, ?_⟩
  · unfold rev_hex
    rw [hbs]
    rfl
  · exact bh2u_valid bs.reverse (fun b hb => hbsmem b (List.mem_reverse.mp hb))
  · rw [bh2u_length]
    omega

/-! ### Byte-encoding lemmas -/

theorem natToBE_length : ∀ (k n : Nat), (natToBE k n).length = k := by
  intro k
  induction k with
  | zero => intro n; rfl
  | succ j ih =>
    intro n
    simp only [natToBE, List.length_append, ih, List.length_cons, List.length_nil]

theorem natToBE_mem_lt : ∀ (k n : Nat), ∀ b ∈ natToBE k n, b < 256 := by
  intro k
  induction k with
  | zero => intro n b hb; simp [natToBE] at hb
  | succ j ih =>
    intro n b hb
    simp only [natToBE] at hb
    rcases List.mem_append.mp hb with h | h
    · exact ih (n / 256) b h
    · simp at h
      subst h
      exact Nat.mod_lt _ (by omega)

theorem beNum_natToBE : ∀ (k n : Nat), beNum (natToBE k n) = n % 256 ^ k := by
  intro k
  induction k with
  | zero => intro n; simp [natToBE, beNum, ofDigitsLSB, Nat.mod_one]
  | succ j ih =>
    intro n
    unfold beNum at ih ⊢
    simp only [natToBE, List.reverse_append, List.reverse_cons, List.reverse_nil,
      List.nil_append, List.cons_append, ofDigitsLSB]
    rw [ih, Nat.pow_succ', Nat.div_mod_eq_mod_mul_div]
    have h1 : n % 256 = n % (256 * 256 ^ j) % 256 :=
      (Nat.mod_mod_of_dvd n ⟨256 ^ j, rfl⟩).symm
    rw [h1, Nat.mod_add_div]

theorem beNum_number_to_string (n : Nat) (h : n < 2 ^ 256) :
    beNum (number_to_string n) = n := by
  unfold number_to_string
  rw [beNum_natToBE]
  exact Nat.mod_eq_of_lt (by norm_num at h ⊢; omega)

theorem number_to_string_length (n : Nat) : (number_to_string n).length = 32 :=
  natToBE_length 32 n

theorem secpOrder_lt : secpOrder < 2 ^ 256 := by norm_num [secpOrder]

theorem mod_secpOrder_lt (x : Nat) : x % secpOrder < secpOrder :=
  Nat.mod_lt x (by norm_num [secpOrder])

theorem mod_secpOrder_lt_two_pow (x : Nat) : x % secpOrder < 2 ^ 256 :=
  lt_trans (mod_secpOrder_lt x) secpOrder_lt

/-- C4: `is_minikey` on the spec's test vector
`"S6c56bnXQiBjk9mqSYE7ykVQ7NzrRy"` does not return `True`: the length and
sentinel checks pass, but the alphabet check tests each `str` character
for membership in the `bytes` alphabet, which raises `TypeError` under
Python 3 — for every choice of primitives.  (`minikey_to_private_key`
itself is the plain SHA-256 of the text, as the claim says.) -/
theorem c4_is_minikey_crashes :
    ∀ (Pt : Type) (P : Prims Pt),
      is_minikey P (strCodes "S6c56bnXQiBjk9mqSYE7ykVQ7NzrRy") = .error .typeError ∧
      minikey_to_private_key P (strCodes "S6c56bnXQiBjk9mqSYE7ykVQ7NzrRy")
        = P.sha256 (strCodes "S6c56bnXQiBjk9mqSYE7ykVQ7NzrRy") := by
  intro Pt P
  exact ⟨rfl, rfl⟩

/-- C7: every signature produced by the signing path has a low `s`: if
the base `ecdsa` primitive returns `s < order` (its documented contract),
the normalized `s` serialized into the signature satisfies
`s ≤ order/2`. -/
theorem c7_low_s :
    ∀ (Pt : Type) (P : Prims Pt) (secret : Nat) (msg_hash sig : List Nat),
      (P.ecdsaSignNumber secret (P.digestToInt msg_hash)).2 < secpOrder →
      EC_KEY_sign P secret msg_hash = .ok sig →
      beNum (sig.drop 32) ≤ secpOrder / 2 := by
  intro Pt P secret msg_hash sig hs hsig
  unfold EC_KEY_sign at hsig
  set rs := mySigningKey_sign_number P secret (P.digestToInt msg_hash) with hrs
  have hs2 : rs.2 ≤ secpOrder / 2 := by
    rw [hrs]
    unfold mySigningKey_sign_number
    set s := (P.ecdsaSignNumber secret (P.digestToInt msg_hash)).2 with hsdef
    by_cases hgt : s > secpOrder / 2
    · rw [if_pos hgt]
      simp only
      omega
    · rw [if_neg hgt]
      simp only
      omega
  have hsig_eq : sig = number_to_string rs.1 ++ number_to_string rs.2 := by
    simp only [] at hsig
    cases hv : P.verifyDigest (P.mulG secret) (number_to_string rs.1 ++ number_to_string rs.2) msg_hash with
    | ok u => rw [hv] at hsig; simp at hsig; exact hsig.symm
    | error e => rw [hv] at hsig; simp at hsig
  rw [hsig_eq]
  have hdrop : (number_to_string rs.1 ++ number_to_string rs.2).drop 32
      = number_to_string rs.2 := by
    have h32 : (number_to_string rs.1).length = 32 := number_to_string_length rs.1
    rw [← h32, List.drop_left]
  rw [hdrop, beNum_number_to_string rs.2 (by have := secpOrder_lt; omega)]
  exact hs2

/-- C7 witness: a concrete signing instance over the trivial point group;
the serialized `s` bytes decode to a value ≤ order/2. -/
theorem c7_low_s_witness :
    beNum ((number_to_string 1 ++ number_to_string 1).drop 32) ≤ secpOrder / 2 :=
  c7_low_s Unit PrimsUnit 1 [] (number_to_string 1 ++ number_to_string 1)
    (by decide) (by decide)

/-- C5 counterexample: with parent scalar 1 and an HMAC whose left half
is `order - 1`, the derived child scalar is zero, yet `_CKD_priv`
returns it successfully (the all-zero key bytes) instead of failing —
there is no error path in the function at all. -/
theorem c5_counterexample :
    string_to_number
        (CKD_priv_inner PrimsZeroScalar (number_to_string 1) [] [] 0).1 = 0 ∧
    CKD_priv_inner PrimsZeroScalar (number_to_string 1) [] [] 0
      = (number_to_string 0, List.replicate 32 0) := by decide

/-- C5 (amended): `_CKD_priv` never signals an error for an
out-of-range child scalar; it always returns
`(left32 + parent) mod order` — hence a value `< order`, which can be
zero and is then returned silently. -/
theorem c5_amended :
    ∀ (Pt : Type) (P : Prims Pt) (k c s : List Nat) (p : Nat),
      string_to_number (CKD_priv_inner P k c s p).1
          = (string_to_number
              ((P.hmacSha512 c (if p ≠ 0 then 0 :: (k ++ s)
                else (P.pointToSer (P.mulG (string_to_number k)) true) ++ s)).take 32)
             + string_to_number k) % secpOrder ∧
      string_to_number (CKD_priv_inner P k c s p).1 < secpOrder := by
  intro Pt P k c s p
  unfold CKD_priv_inner
  simp only []
  constructor
  · show beNum (number_to_string _) = _
    rw [beNum_number_to_string _ (mod_secpOrder_lt_two_pow _)]
  · show beNum (number_to_string _) < _
    rw [beNum_number_to_string _ (mod_secpOrder_lt_two_pow _)]
    exact mod_secpOrder_lt _

/-! ### C8: hardened-index rejection in `CKD_pub` -/

theorem except_bind_ok {eps alpha beta : Type} (a : alpha) (f : alpha → Except eps beta) :
    (Except.ok a >>= f : Except eps beta) = f a := rfl

theorem except_bind_error {eps alpha beta : Type} (e : eps) (f : alpha → Except eps beta) :
    (Except.error e >>= f : Except eps beta) = .error e := rfl

theorem except_pure_eq {eps alpha : Type} (a : alpha) :
    (pure a : Except eps alpha) = .ok a := rfl

theorem bfh_error_eq : ∀ (m : Nat) (s : List Nat) (e : PyErr),
    s.length ≤ m → bfh s = .error e → e = .valueError := by
  intro m
  induction m with
  | zero =>
    intro s e hlen hs
    have : s = [] := List.eq_nil_of_length_eq_zero (by omega)
    subst this
    simp [bfh] at hs
  | succ m ih =>
    intro s e hlen hs
    match s with
    | [] => simp [bfh] at hs
    | [c] => simp [bfh] at hs; exact hs.symm
    | c1 :: c2 :: rest =>
      unfold bfh at hs
      by_cases hv : isHexDigitCode c1 && isHexDigitCode c2
      · rw [if_pos hv] at hs
        cases hrest : bfh rest with
        | ok t => rw [hrest] at hs; simp at hs
        | error e' =>
          rw [hrest] at hs
          simp at hs
          subst hs
          exact ih rest e' (by simp at hlen; omega) hrest
      · rw [if_neg hv] at hs
        simp at hs
        exact hs.symm

theorem rev_hex_error_eq (s : List Nat) (e : PyErr)
    (h : rev_hex s = .error e) : e = .valueError := by
  unfold rev_hex at h
  cases hb : bfh s with
  | ok t =>
    rw [hb] at h
    simp only [except_bind_ok, except_pure_eq] at h
    exact Except.noConfusion h
  | error e' =>
    rw [hb] at h
    simp only [except_bind_error] at h
    simp at h
    subst h
    exact bfh_error_eq s.length s e' (le_refl _) hb

theorem int_to_hex_error_eq (i len : Nat) (e : PyErr)
    (h : int_to_hex i len = .error e) : e = .valueError := by
  unfold int_to_hex at h
  exact rev_hex_error_eq _ e h

theorem ser_to_point_error_cases {Pt : Type} (P : Prims Pt) (cK : List Nat)
    (e : PyErr) (h : ser_to_point P cK = .error e) :
    e = .indexError ∨ e = .assertionError ∨ P.deserPoint cK = .error e := by
  unfold ser_to_point at h
  split at h
  · simp at h
    exact Or.inl h.symm
  · split at h
    · exact Or.inr (Or.inr h)
    · simp at h
      exact Or.inr (Or.inl h.symm)

theorem CKD_pub_inner_no_runtime {Pt : Type} (P : Prims Pt)
    (hd : ∀ b, P.deserPoint b ≠ .error .runtimeError) (cK c s : List Nat) :
    CKD_pub_inner P cK c s ≠ .error .runtimeError := by
  intro hcontra
  unfold CKD_pub_inner at hcontra
  cases hsp : ser_to_point P cK with
  | ok pt =>
    rw [hsp] at hcontra
    simp only [except_bind_ok, except_bind_error] at hcontra
    simp [pure, Except.pure] at hcontra
  | error e =>
    rw [hsp] at hcontra
    simp only [except_bind_ok, except_bind_error] at hcontra
    simp at hcontra
    subst hcontra
    rcases ser_to_point_error_cases P cK _ hsp with h | h | h
    · exact PyErr.noConfusion h
    · exact PyErr.noConfusion h
    · exact hd cK h

theorem and_prime_iff (n : Nat) (h : n < 2 ^ 32) :
    (n &&& BIP32_PRIME ≠ 0) ↔ 2 ^ 31 ≤ n := by
  have hp : BIP32_PRIME = 2 ^ 31 := by norm_num [BIP32_PRIME]
  rw [hp, Nat.and_two_pow]
  rcases Nat.lt_or_ge n (2 ^ 31) with hlt | hge
  · rw [Nat.testBit_eq_false_of_lt hlt]
    simp
    omega
  · have hbit : n.testBit 31 = true := by
      rw [Nat.testBit_to_div_mod]
      simp only [decide_eq_true_eq]
      omega
    rw [hbit]
    simp
    omega

/-- C8: public-only derivation fails (with the bare-`raise`
`RuntimeError`) exactly on hardened indices: for every 32-bit index `n`,
`CKD_pub` raises iff `n ≥ 2^31`; for `n < 2^31` this error can never
arise (the only errors then possible are the distinct parse or point
errors of `_CKD_pub`).  The hypothesis records that the curve library
never raises a bare `RuntimeError`. -/
theorem c8_hardened_rejection :
    ∀ (Pt : Type) (P : Prims Pt) (cK c : List Nat) (n : Nat),
      (∀ b, P.deserPoint b ≠ .error .runtimeError) →
      n < 2 ^ 32 →
      (CKD_pub P cK c n = .error .runtimeError ↔ 2 ^ 31 ≤ n) := by
  intro Pt P cK c n hd hn
  unfold CKD_pub
  by_cases hprime : n &&& BIP32_PRIME ≠ 0
  · rw [if_pos hprime]
    constructor
    · intro _
      exact (and_prime_iff n hn).mp hprime
    · intro _
      rfl
  · rw [if_neg hprime]
    have hlt : ¬ 2 ^ 31 ≤ n := fun hge => hprime ((and_prime_iff n hn).mpr hge)
    constructor
    · intro hres
      exfalso
      cases h1 : int_to_hex n 4 with
      | error e =>
        rw [h1] at hres
        simp only [except_bind_error] at hres
        simp at hres
        have := int_to_hex_error_eq n 4 e h1
        subst this
        exact PyErr.noConfusion hres
      | ok hx =>
        rw [h1] at hres
        simp only [except_bind_ok] at hres
        cases h2 : rev_hex hx with
        | error e =>
          rw [h2] at hres
          simp only [except_bind_error] at hres
          simp at hres
          have := rev_hex_error_eq hx e h2
          subst this
          exact PyErr.noConfusion hres
        | ok r =>
          rw [h2] at hres
          simp only [except_bind_ok] at hres
          cases h3 : bfh r with
          | error e =>
            rw [h3] at hres
            simp only [except_bind_error] at hres
            simp at hres
            have := bfh_error_eq r.length r e (le_refl _) h3
            subst this
            exact PyErr.noConfusion hres
          | ok s =>
            rw [h3] at hres
            simp only [except_bind_ok] at hres
            exact CKD_pub_inner_no_runtime P hd cK c s hres
    · intro hge
      exact absurd hge hlt

/-- C8 witness: the first hardened index `2^31` is rejected with the
bare-`raise` error. -/
theorem c8_hardened_rejection_witness :
    CKD_pub PrimsUnit [] [] (2 ^ 31) = .error .runtimeError :=
  (c8_hardened_rejection Unit PrimsUnit [] [] (2 ^ 31)
    (fun _ h => Except.noConfusion h) (by norm_num)).mpr (by norm_num)

/-! ### C3 / C1: `decrypt_message` -/

/-- C3 counterexample: a 69-byte decoded envelope (minimal per the claim:
magic + 33-byte point + 32-byte MAC, empty ciphertext) is **rejected** by
the length check — the code requires at least 85 bytes, not 69. -/
theorem c3_counterexample :
    (BIE1 ++ List.replicate 65 0).length = 69 ∧
    decrypt_message PrimsUnit 1 (BIE1 ++ List.replicate 65 0)
      = .error (.exception "invalid ciphertext: length") := by decide

/-- C3 (amended): `decrypt_message` raises the length error exactly when
the base64-decoded envelope is shorter than **85** bytes
(= 4 magic + 33 point + 16 minimum AES-CBC ciphertext block + 32 MAC);
at 85 bytes or more the length error can no longer arise.  The two
hypotheses record that the point library and the AES primitive never
raise that exact exception themselves. -/
theorem c3_length_threshold :
    ∀ (Pt : Type) (P : Prims Pt) (secret : Nat) (encTxt : List Nat),
      (∀ b, P.deserPoint b ≠ .error (.exception "invalid ciphertext: length")) →
      (∀ k i d, P.aesDecrypt k i d ≠ .error (.exception "invalid ciphertext: length")) →
      (decrypt_message P secret encTxt
          = .error (.exception "invalid ciphertext: length")
        ↔ (P.b64decode encTxt).length < 85) := by
  intro Pt P secret encTxt hd ha
  unfold decrypt_message
  simp only []
  by_cases hlen : (P.b64decode encTxt).length < 85
  · rw [if_pos hlen]
    simp [hlen]
  · rw [if_neg hlen]
    simp only [iff_false_intro hlen, iff_false]
    intro hres
    by_cases hmagic : (P.b64decode encTxt).take 4 ≠ BIE1
    · rw [if_pos hmagic] at hres
      simp at hres
    · rw [if_neg hmagic] at hres
      cases hsp : ser_to_point P (((P.b64decode encTxt).drop 4).take 33) with
      | error e =>
        rw [hsp] at hres
        rcases ser_to_point_error_cases P _ e hsp with h | h | h
        · subst h
          simp only [] at hres
          simp at hres
        · subst h
          simp only [] at hres
          simp at hres
        · cases e <;> simp only [] at hres <;> simp at hres
          subst hres
          exact hd _ h
      | ok pt =>
        rw [hsp] at hres
        simp only [] at hres
        by_cases hvalid : ¬ P.pointIsValid pt
        · rw [if_pos hvalid] at hres
          simp at hres
        · rw [if_neg hvalid] at hres
          by_cases hmac : (P.b64decode encTxt).drop ((P.b64decode encTxt).length - 32)
              ≠ P.hmacSha256 ((P.sha512 (point_to_ser P (P.pmul secret pt) true)).drop 32)
                  ((P.b64decode encTxt).take ((P.b64decode encTxt).length - 32))
          · rw [if_pos hmac] at hres
            simp at hres
          · rw [if_neg hmac] at hres
            exact ha _ _ _ hres

/-- C3 witness: the empty string decodes (with the identity base64 of the
trivial bundle) to 0 < 85 bytes and is rejected with the length error. -/
theorem c3_length_threshold_witness :
    decrypt_message PrimsUnit 1 [] = .error (.exception "invalid ciphertext: length") :=
  (c3_length_threshold Unit PrimsUnit 1 []
      (fun _ h => Except.noConfusion h)
      (fun _ _ _ h => Except.noConfusion h)).mpr (by decide)

/-- C1: if the length, magic, and ephemeral-point checks pass and the
recomputed HMAC-SHA256 over all but the trailing 32 bytes differs from
those trailing 32 bytes, then `decrypt_message` fails with
`InvalidPassword` — and it does so for **every** AES primitive, i.e. the
result never depends on the cipher, so the cipher is never run over the
ciphertext. -/
theorem c1_mac_before_decrypt :
    ∀ (Pt : Type) (P : Prims Pt) (secret : Nat) (encTxt : List Nat) (pt : Pt),
      85 ≤ (P.b64decode encTxt).length →
      (P.b64decode encTxt).take 4 = BIE1 →
      ser_to_point P (((P.b64decode encTxt).drop 4).take 33) = .ok pt →
      P.pointIsValid pt = true →
      (P.b64decode encTxt).drop ((P.b64decode encTxt).length - 32)
        ≠ P.hmacSha256
            ((P.sha512 (point_to_ser P (P.pmul secret pt) true)).drop 32)
            ((P.b64decode encTxt).take ((P.b64decode encTxt).length - 32)) →
      ∀ f, decrypt_message (setAes P f) secret encTxt = .error .invalidPassword := by
  intro Pt P secret encTxt pt hlen hmagic hpt hvalid hmac f
  unfold decrypt_message
  simp only [setAes]
  rw [if_neg (by omega)]
  rw [if_neg (not_not_intro hmagic)]
  have hpt2 : ser_to_point
      ⟨P.sha256, P.sha512, P.ripemd160, P.hmacSha512, P.hmacSha256, P.b64decode,
       f, P.mulG, P.pmul, P.padd, P.pointToSer, P.pointRaw, P.deserPoint,
       P.pointIsValid, P.ecdsaSignNumber, P.recoverPt, P.verifyDigest, P.digestToInt⟩
      (((P.b64decode encTxt).drop 4).take 33) = .ok pt := hpt
  rw [hpt2]
  simp only []
  rw [if_neg (not_not_intro hvalid)]
  unfold point_to_ser at hmac ⊢
  simp only []
  rw [if_pos hmac]

/-- C1 witness: a concrete 85-byte envelope with valid magic and point
marker whose MAC mismatches; the result is `InvalidPassword` for an AES
primitive chosen to return successfully if it were (wrongly) invoked. -/
theorem c1_mac_before_decrypt_witness :
    decrypt_message (setAes PrimsUnit (fun _ _ _ => .ok [9])) 1
      (BIE1 ++ 2 :: List.replicate 80 1) = .error .invalidPassword :=
  c1_mac_before_decrypt Unit PrimsUnit 1 (BIE1 ++ 2 :: List.replicate 80 1) ()
    (by decide) (by decide) (by decide) (by decide) (by decide)
    (fun _ _ _ => .ok [9])

/-! ### C10: `verify_message` totality -/

/-- C10: `verify_message` is total at its public interface: it returns
`True` exactly when the whole `try:` body succeeds, and every internal
failure — in particular a signature of the wrong length or an
out-of-range header byte — is caught and mapped to `False` (never
re-raised). -/
theorem c10_verify_message_total :
    ∀ (Pt : Type) (P : Prims Pt) (address sig message : List Nat),
      (verify_message P address sig message = true ↔
        verify_message_inner P address sig message = .ok ()) ∧
      (∀ e, verify_message_inner P address sig message = .error e →
        verify_message P address sig message = false) ∧
      (sig.length ≠ 65 → verify_message P address sig message = false) ∧
      (∀ nV, sig.head? = some nV → nV < 27 ∨ 35 ≤ nV →
        verify_message P address sig message = false) := by
  intro Pt P address sig message
  refine ⟨?_, ?_, ?_, ?_⟩
  · unfold verify_message
    cases h : verify_message_inner P address sig message with
    | ok u => cases u; simp
    | error e => simp [h]
  · intro e he
    unfold verify_message
    rw [he]
  · intro hlen
    unfold verify_message verify_message_inner pubkey_from_signature
    rw [if_pos hlen]
    simp only [except_bind_error]
  · intro nV hhead hrange
    by_cases hlen : sig.length ≠ 65
    · unfold verify_message verify_message_inner pubkey_from_signature
      rw [if_pos hlen]
      simp only [except_bind_error]
    · unfold verify_message verify_message_inner pubkey_from_signature
      rw [if_neg hlen, hhead]
      simp only []
      rw [if_pos hrange]
      simp only [except_bind_error]

/-- C10 witness: the empty signature (wrong length) yields `False`. -/
theorem c10_verify_message_total_witness :
    verify_message PrimsUnit [] [] [] = false :=
  (c10_verify_message_total Unit PrimsUnit [] [] []).2.2.1 (by decide)

/-- Base58Check round-trip: encoding then decoding a payload with at
least one nonzero byte recovers it, checksum verified. -/
theorem encode_decode_base58check {Pt : Type} (P : Prims Pt)
    (hsha_bytes : ∀ y, ∀ b ∈ P.sha256 y, b < 256)
    (hsha_len : ∀ y, (P.sha256 y).length = 32)
    (x : List Nat) (hx : ∀ b ∈ x, b < 256) (hnz : ∃ b ∈ x, b ≠ 0) :
    ∃ e, EncodeBase58Check P x = .ok e ∧ DecodeBase58Check P e = .ok (some x) := by
  set payload := x ++ (pyHash P x).take 4 with hpayload
  have hpb : ∀ b ∈ payload, b < 256 := by
    intro b hb
    rcases List.mem_append.mp hb with h | h
    · exact hx b h
    · exact hsha_bytes _ b (List.mem_of_mem_take h)
  have hpnz : ∃ b ∈ payload, b ≠ 0 := by
    rcases hnz with ⟨b, hb, hbne⟩
    exact ⟨b, List.mem_append.mpr (Or.inl hb), hbne⟩
  obtain ⟨e, he⟩ : ∃ e, base_encode payload 58 = .ok e := by
    unfold base_encode
    rw [if_neg (by norm_num)]
    exact ⟨_, rfl⟩
  have hrt := base_roundtrip_gen payload 58 none (Or.inl rfl) hpb hpnz (Or.inl rfl)
  rw [he] at hrt
  simp only [Except.bind] at hrt
  refine ⟨e, he, ?_⟩
  unfold DecodeBase58Check
  rw [hrt]
  simp only [except_bind_ok]
  have hlen4 : ((pyHash P x).take 4).length = 4 := by
    rw [List.length_take]
    have h32 : (pyHash P x).length = 32 := hsha_len _
    omega
  have hkey : payload.take (payload.length - 4) = x := by
    rw [hpayload, List.length_append, hlen4]
    have : x.length + 4 - 4 = x.length := by omega
    rw [this, List.take_left]
  have hcsum : payload.drop (payload.length - 4) = (pyHash P x).take 4 := by
    rw [hpayload, List.length_append, hlen4]
    have : x.length + 4 - 4 = x.length := by omega
    rw [this, List.drop_left]
  rw [hkey, hcsum]
  rw [if_neg (fun h => h rfl), except_pure_eq]

/-- Field slices of a serialized 78-byte extended-key payload. -/
theorem xkey_slices (w x y z depth : Nat) (fpr cn c tail : List Nat)
    (hfpr : fpr.length = 4) (hcn : cn.length = 4) (hc : c.length = 32) :
    ([w, x, y, z] ++ [depth] ++ fpr ++ cn ++ c ++ tail).take 4 = [w, x, y, z] ∧
    ([w, x, y, z] ++ [depth] ++ fpr ++ cn ++ c ++ tail).getD 4 0 = depth ∧
    (([w, x, y, z] ++ [depth] ++ fpr ++ cn ++ c ++ tail).drop 5).take 4 = fpr ∧
    (([w, x, y, z] ++ [depth] ++ fpr ++ cn ++ c ++ tail).drop 9).take 4 = cn ∧
    (([w, x, y, z] ++ [depth] ++ fpr ++ cn ++ c ++ tail).drop 13).take 32 = c ∧
    ([w, x, y, z] ++ [depth] ++ fpr ++ cn ++ c ++ tail).drop 45 = tail ∧
    ([w, x, y, z] ++ [depth] ++ fpr ++ cn ++ c ++ tail).length = 45 + tail.length := by
  have hshape : [w, x, y, z] ++ [depth] ++ fpr ++ cn ++ c ++ tail
      = w :: x :: y :: z :: depth :: (fpr ++ (cn ++ (c ++ tail))) := by
    simp
  rw [hshape]
  have h5 : (w :: x :: y :: z :: depth :: (fpr ++ (cn ++ (c ++ tail)))).drop 5
      = fpr ++ (cn ++ (c ++ tail)) := rfl
  have h9 : (w :: x :: y :: z :: depth :: (fpr ++ (cn ++ (c ++ tail)))).drop 9
      = cn ++ (c ++ tail) := by
    show List.drop 4 (fpr ++ (cn ++ (c ++ tail))) = cn ++ (c ++ tail)
    exact List.drop_left' hfpr
  have h13 : (w :: x :: y :: z :: depth :: (fpr ++ (cn ++ (c ++ tail)))).drop 13
      = c ++ tail := by
    show List.drop 8 (fpr ++ (cn ++ (c ++ tail))) = c ++ tail
    rw [show (8 : Nat) = fpr.length + 4 by rw [hfpr], List.drop_append,
      List.drop_left' hcn]
  have h45 : (w :: x :: y :: z :: depth :: (fpr ++ (cn ++ (c ++ tail)))).drop 45
      = tail := by
    show List.drop 40 (fpr ++ (cn ++ (c ++ tail))) = tail
    rw [show (40 : Nat) = fpr.length + 36 by rw [hfpr], List.drop_append,
      show (36 : Nat) = cn.length + 32 by rw [hcn], List.drop_append,
      List.drop_left' hc]
  refine ⟨rfl, rfl, ?_, ?_, ?_, h45, ?_⟩
  · rw [h5, List.take_left' hfpr]
  · rw [h9, List.take_left' hcn]
  · rw [h13, List.take_left' hc]
  · simp [hfpr, hcn, hc]
    omega

theorem xprv_header_zero : xprv_header 0 = .ok [4, 136, 173, 228] := by decide

theorem xpub_header_zero : xpub_header 0 = .ok [4, 136, 178, 30] := by decide

set_option maxHeartbeats 2000000 in
theorem serialize_deserialize_xprv {Pt : Type} (P : Prims Pt)
    (hsha_bytes : ∀ y, ∀ b ∈ P.sha256 y, b < 256)
    (hsha_len : ∀ y, (P.sha256 y).length = 32)
    (c k fpr cn : List Nat) (depth : Nat)
    (hc : c.length = 32) (hcb : ∀ b ∈ c, b < 256)
    (hk : k.length = 32) (hkb : ∀ b ∈ k, b < 256)
    (hfpr : fpr.length = 4) (hfprb : ∀ b ∈ fpr, b < 256)
    (hcn : cn.length = 4) (hcnb : ∀ b ∈ cn, b < 256)
    (hdepth : depth < 256) :
    ∃ xprv, serialize_xprv P 0 c k depth fpr cn = .ok xprv ∧
      deserialize_xprv P xprv = .ok (0, depth, fpr, cn, c, k) := by
  obtain ⟨htake, hgetD, hfprs, hcns, hcs, htails, hlens⟩ :=
    xkey_slices 4 136 173 228 depth fpr cn c ([0] ++ k) hfpr hcn hc
  have hform : [4, 136, 173, 228] ++ [depth] ++ fpr ++ cn ++ c ++ [0] ++ k
      = [4, 136, 173, 228] ++ [depth] ++ fpr ++ cn ++ c ++ ([0] ++ k) := by
    simp
  set payload := [4, 136, 173, 228] ++ [depth] ++ fpr ++ cn ++ c ++ [0] ++ k
    with hpay
  have hpb : ∀ b ∈ payload, b < 256 := by
    intro b hb
    rw [hpay] at hb
    simp only [List.append_assoc, List.mem_append, List.mem_cons,
      List.mem_singleton, List.not_mem_nil, or_false] at hb
    rcases hb with h | h | h | h | h | h
    · rcases h with h | h | h | h <;> omega
    · omega
    · exact hfprb b h
    · exact hcnb b h
    · exact hcb b h
    · rcases h with h | h
      · omega
      · exact hkb b h
  have hpnz : ∃ b ∈ payload, b ≠ 0 := by
    refine ⟨4, ?_, by omega⟩
    rw [hpay]
    simp
  obtain ⟨e, henc, hdec⟩ := encode_decode_base58check P hsha_bytes hsha_len
    payload hpb hpnz
  refine ⟨e, ?_, ?_⟩
  · unfold serialize_xprv
    rw [xprv_header_zero]
    simp only [except_bind_ok]
    unfold pyBytesSingle
    rw [if_pos hdepth]
    simp only [except_bind_ok]
    exact henc
  · unfold deserialize_xprv deserialize_xkey
    rw [hdec]
    simp only [except_bind_ok]
    rw [hform]
    rw [if_neg (by rw [hlens]; simp [hk])]
    simp only [if_true]
    rw [hgetD, hfprs, hcns, hcs, htake]
    have hhv : (headerValue [4, 136, 173, 228] : Int) - XPRV_HEADER = 0 := by decide
    rw [hhv]
    rw [if_neg (by omega)]
    have hk46 : ([4, 136, 173, 228] ++ [depth] ++ fpr ++ cn ++ c ++ ([0] ++ k)).drop (13 + 33)
        = k := by
      have h46 : (13 + 33 : Nat) = 45 + 1 := by omega
      rw [h46, ← List.drop_drop, htails]
      rfl
    rw [hk46]
    rfl

set_option maxHeartbeats 2000000 in
theorem serialize_deserialize_xpub {Pt : Type} (P : Prims Pt)
    (hsha_bytes : ∀ y, ∀ b ∈ P.sha256 y, b < 256)
    (hsha_len : ∀ y, (P.sha256 y).length = 32)
    (c cK fpr cn : List Nat) (depth : Nat)
    (hc : c.length = 32) (hcb : ∀ b ∈ c, b < 256)
    (hcK : cK.length = 33) (hcKb : ∀ b ∈ cK, b < 256)
    (hfpr : fpr.length = 4) (hfprb : ∀ b ∈ fpr, b < 256)
    (hcn : cn.length = 4) (hcnb : ∀ b ∈ cn, b < 256)
    (hdepth : depth < 256) :
    ∃ xpub, serialize_xpub P 0 c cK depth fpr cn = .ok xpub ∧
      deserialize_xpub P xpub = .ok (0, depth, fpr, cn, c, cK) := by
  obtain ⟨htake, hgetD, hfprs, hcns, hcs, htails, hlens⟩ :=
    xkey_slices 4 136 178 30 depth fpr cn c cK hfpr hcn hc
  set payload := [4, 136, 178, 30] ++ [depth] ++ fpr ++ cn ++ c ++ cK with hpay
  have hpb : ∀ b ∈ payload, b < 256 := by
    intro b hb
    rw [hpay] at hb
    simp only [List.append_assoc, List.mem_append, List.mem_cons,
      List.mem_singleton, List.not_mem_nil, or_false] at hb
    rcases hb with h | h | h | h | h | h
    · rcases h with h | h | h | h <;> omega
    · omega
    · exact hfprb b h
    · exact hcnb b h
    · exact hcb b h
    · exact hcKb b h
  have hpnz : ∃ b ∈ payload, b ≠ 0 := by
    refine ⟨4, ?_, by omega⟩
    rw [hpay]
    simp
  obtain ⟨e, henc, hdec⟩ := encode_decode_base58check P hsha_bytes hsha_len
    payload hpb hpnz
  refine ⟨e, ?_, ?_⟩
  · unfold serialize_xpub
    rw [xpub_header_zero]
    simp only [except_bind_ok]
    unfold pyBytesSingle
    rw [if_pos hdepth]
    simp only [except_bind_ok]
    exact henc
  · unfold deserialize_xpub deserialize_xkey
    rw [hdec]
    simp only [except_bind_ok]
    rw [if_neg (by rw [hlens]; simp [hcK])]
    rw [hgetD, hfprs, hcns, hcs, htake]
    simp only [Bool.false_eq_true, if_false]
    have hhv : (headerValue [4, 136, 178, 30] : Int) - XPUB_HEADER = 0 := by decide
    rw [hhv]
    rw [if_neg (by omega)]
    have hk45 : payload.drop (13 + 32) = cK := htails
    rw [hk45]
    rfl

theorem string_to_number_number_to_string (n : Nat) (h : n < 2 ^ 256) :
    string_to_number (number_to_string n) = n :=
  beNum_number_to_string n h

theorem and_prime_zero (i : Nat) (h : i < 2 ^ 31) : i &&& BIP32_PRIME = 0 := by
  have hp : BIP32_PRIME = 2 ^ 31 := by norm_num [BIP32_PRIME]
  rw [hp, Nat.and_two_pow, Nat.testBit_eq_false_of_lt h]
  simp

theorem ckd_index_ok (n : Nat) (hn : n < 2 ^ 32) :
    ∃ h r s, int_to_hex n 4 = .ok h ∧ rev_hex h = .ok r ∧ bfh r = .ok s := by
  have hle : (natToHexMin n).length ≤ 8 :=
    natToHexMin_length_le n 8 (by omega) (by norm_num at hn ⊢; omega)
  have hlen8 : (List.replicate (2 * 4 - (natToHexMin n).length) 48
      ++ natToHexMin n).length = 8 := by
    rw [List.length_append, List.length_replicate]
    omega
  have hvalid : ∀ ch ∈ List.replicate (2 * 4 - (natToHexMin n).length) 48
      ++ natToHexMin n, isHexDigitCode ch = true := by
    intro ch hc
    rcases List.mem_append.mp hc with h | h
    · rw [List.eq_of_mem_replicate h]
      decide
    · exact natToHexMin_valid n ch h
  obtain ⟨h1, hh1, hv1, he1⟩ := rev_hex_ok _ hvalid (by rw [hlen8])
  obtain ⟨r, hr, hv2, he2⟩ := rev_hex_ok h1 hv1 he1
  obtain ⟨s, hs, _, _⟩ := bfh_ok r.length r (le_refl _) hv2 he2
  exact ⟨h1, r, s, by unfold int_to_hex; exact hh1, hr, hs⟩

theorem get_pubkeys_snd {Pt : Type} (P : Prims Pt) (x : List Nat) :
    (get_pubkeys_from_secret P x).2 = serOf P x := rfl

theorem ckd_pub_inner_matches {Pt : Type} (P : Prims Pt)
    (hser_head : ∀ p : Pt, (P.pointToSer p true).head? = some 2
      ∨ (P.pointToSer p true).head? = some 3)
    (hdeser : ∀ p : Pt, P.deserPoint (P.pointToSer p true) = .ok p)
    (hhom : ∀ a b : Nat, P.mulG ((a + b) % secpOrder) = P.padd (P.mulG a) (P.mulG b))
    (k c s : List Nat) :
    CKD_pub_inner P (serOf P k) c s
      = .ok (serOf P (CKD_priv_inner P k c s 0).1, (CKD_priv_inner P k c s 0).2) := by
  have hstp : ser_to_point P (serOf P k) = .ok (P.mulG (string_to_number k)) := by
    unfold ser_to_point serOf
    rcases hser_head (P.mulG (string_to_number k)) with h2 | h2 <;> rw [h2] <;>
      simp only []
    · rw [if_pos (Or.inl trivial)]
      exact hdeser _
    · rw [if_pos (Or.inr (Or.inl trivial))]
      exact hdeser _
  unfold CKD_pub_inner
  rw [hstp]
  simp only [except_bind_ok, except_pure_eq]
  unfold CKD_priv_inner serOf
  simp only []
  rw [if_neg (by simp)]
  rw [string_to_number_number_to_string _ (mod_secpOrder_lt_two_pow _)]
  rw [hhom]

theorem CKD_both_eval {Pt : Type} (P : Prims Pt)
    (hser_head : ∀ p : Pt, (P.pointToSer p true).head? = some 2
      ∨ (P.pointToSer p true).head? = some 3)
    (hdeser : ∀ p : Pt, P.deserPoint (P.pointToSer p true) = .ok p)
    (hhom : ∀ a b : Nat, P.mulG ((a + b) % secpOrder) = P.padd (P.mulG a) (P.mulG b))
    (k c : List Nat) (i : Nat) (hi : i < 2 ^ 31) :
    ∃ s : List Nat,
      CKD_priv P k c i = .ok (CKD_priv_inner P k c s 0) ∧
      CKD_pub P (serOf P k) c i
        = .ok (serOf P (CKD_priv_inner P k c s 0).1, (CKD_priv_inner P k c s 0).2) := by
  obtain ⟨h, r, s, hh, hr, hs⟩ := ckd_index_ok i (by
    have : (2 : Nat) ^ 31 < 2 ^ 32 := by norm_num
    omega)
  have hzero : i &&& BIP32_PRIME = 0 := and_prime_zero i hi
  refine ⟨s, ?_, ?_⟩
  · unfold CKD_priv
    rw [hh]
    simp only [except_bind_ok]
    rw [hr]
    simp only [except_bind_ok]
    rw [hs]
    simp only [except_bind_ok, except_pure_eq]
    rw [hzero]
  · unfold CKD_pub
    rw [if_neg (by rw [hzero]; simp)]
    rw [hh]
    simp only [except_bind_ok]
    rw [hr]
    simp only [except_bind_ok]
    rw [hs]
    simp only [except_bind_ok]
    exact ckd_pub_inner_matches P hser_head hdeser hhom k c s

theorem countNE_nil_cons (ps : List (List Nat)) :
    countNE ([] :: ps) = countNE ps := by
  simp [countNE, List.isEmpty]

theorem countNE_cons_ne (p : List Nat) (ps : List (List Nat)) (hp : p ≠ []) :
    countNE (p :: ps) = 1 + countNE ps := by
  unfold countNE
  rw [List.filter_cons_of_pos]
  · simp
    omega
  · simp [List.isEmpty_iff]
    exact hp

theorem countNE_pos (ps : List (List Nat)) (h : ∃ p ∈ ps, p ≠ []) :
    0 < countNE ps := by
  induction ps with
  | nil => simp at h
  | cons q t ih =>
    rcases h with ⟨p, hp, hpne⟩
    rcases List.mem_cons.mp hp with h | h
    · subst h
      rw [countNE_cons_ne p t hpne]
      omega
    · by_cases hq : q = []
      · subst hq
        rw [countNE_nil_cons]
        exact ih ⟨p, h, hpne⟩
      · rw [countNE_cons_ne q t hq]
        omega

/-- Correspondence of the private and public derivation loops: starting
from matching states, both succeed, the public compressed key tracks
`serOf` of the private key, and chain code / depth / last-step data
agree. -/
theorem loops_correspond {Pt : Type} (P : Prims Pt)
    (hser_head : ∀ p : Pt, (P.pointToSer p true).head? = some 2
      ∨ (P.pointToSer p true).head? = some 3)
    (hdeser : ∀ p : Pt, P.deserPoint (P.pointToSer p true) = .ok p)
    (hhom : ∀ a b : Nat, P.mulG ((a + b) % secpOrder) = P.padd (P.mulG a) (P.mulG b)) :
    ∀ (pieces : List (List Nat)),
      (∀ p ∈ pieces, p ≠ [] →
        (∀ ch ∈ p, isDigitCode ch = true) ∧ pyIntVal p < 2 ^ 31) →
      ∀ (k c : List Nat) (depth : Nat) (lastP : Option (List Nat × Nat)),
        ∃ k' c' d' last',
          bip32PrivLoop P pieces k c depth lastP = .ok (k', c', d', last') ∧
          bip32PubLoop P pieces (serOf P k) c depth (lastMap P lastP)
            = .ok (serOf P k', c', d', lastMap P last') ∧
          d' = depth + countNE pieces ∧
          (last' = none → lastP = none ∧ countNE pieces = 0) ∧
          ((∀ pk i0, lastP = some (pk, i0) → i0 < 2 ^ 31) →
            ∀ pk i0, last' = some (pk, i0) → i0 < 2 ^ 31) := by
  intro pieces
  induction pieces with
  | nil =>
    intro _ k c depth lastP
    refine ⟨k, c, depth, lastP, rfl, rfl, by simp [countNE], ?_, ?_⟩
    · intro h
      exact ⟨h, rfl⟩
    · intro h pk i0 hl
      exact h pk i0 hl
  | cons p rest ih =>
    intro hp k c depth lastP
    by_cases hpe : p = []
    · subst hpe
      obtain ⟨k', c', d', last', h1, h2, h3, h4, h5⟩ :=
        ih (fun q hq => hp q (by simp [hq])) k c depth lastP
      refine ⟨k', c', d', last', ?_, ?_, ?_, ?_, h5⟩
      · unfold bip32PrivLoop
        rw [if_pos rfl]
        exact h1
      · unfold bip32PubLoop
        rw [if_pos rfl]
        exact h2
      · rw [countNE_nil_cons]
        exact h3
      · intro h
        obtain ⟨ha, hb⟩ := h4 h
        rw [countNE_nil_cons]
        exact ⟨ha, hb⟩
    · obtain ⟨hdigits, hbound⟩ := hp p (by simp) hpe
      -- the trailing character is a digit, hence not an apostrophe
      have hlast : p.getLast? ≠ some 39 := by
        intro hl
        have hmem : (39 : Nat) ∈ p := List.mem_of_getLast?_eq_some hl
        have := hdigits 39 hmem
        simp [isDigitCode] at this
      -- int(n) parses
      have hparse : pyInt p = .ok (pyIntVal p) := by
        unfold pyInt
        rw [if_pos ⟨hpe, List.all_eq_true.mpr (fun ch hch => hdigits ch hch)⟩]
      obtain ⟨s, hpriv, hpub⟩ := CKD_both_eval P hser_head hdeser hhom k c
        (pyIntVal p) hbound
      obtain ⟨k', c', d', last', h1, h2, h3, h4, h5⟩ :=
        ih (fun q hq => hp q (by simp [hq]))
          (CKD_priv_inner P k c s 0).1 (CKD_priv_inner P k c s 0).2
          (depth + 1) (some (k, pyIntVal p))
      refine ⟨k', c', d', last', ?_, ?_, ?_, ?_, ?_⟩
      · unfold bip32PrivLoop
        rw [if_neg hpe, if_neg hlast, hparse]
        simp only [except_bind_ok]
        rw [hpriv]
        simp only [except_bind_ok]
        exact h1
      · unfold bip32PubLoop
        rw [if_neg hpe, hparse]
        simp only [except_bind_ok]
        rw [hpub]
        simp only [except_bind_ok]
        exact h2
      · rw [countNE_cons_ne p rest hpe]
        omega
      · intro h
        obtain ⟨ha, _⟩ := h4 h
        exact absurd ha (by simp)
      · intro _ pk i0 hl
        refine h5 ?_ pk i0 hl
        intro pk' i0' hsome
        cases hsome
        · exact hbound

theorem base_encode_58_ok (v : List Nat) : ∃ e, base_encode v 58 = .ok e := by
  unfold base_encode
  rw [if_neg (by norm_num)]
  exact ⟨_, rfl⟩

theorem format8Upper_bfh_ok (i : Nat) (hi : i < 2 ^ 32) :
    ∃ cnb, bfh (format8Upper i) = .ok cnb := by
  have hle : (natToHexMinUpper i).length ≤ 8 := by
    unfold natToHexMinUpper
    rw [List.length_reverse, List.length_map]
    exact toDigitsLSB_length_le 16 (by omega) 8 i (by omega) (by norm_num at hi ⊢; omega)
  have hlen8 : (format8Upper i).length = 8 := by
    unfold format8Upper
    simp only [List.length_append, List.length_replicate]
    omega
  have hvalid : ∀ ch ∈ format8Upper i, isHexDigitCode ch = true := by
    intro ch hc
    unfold format8Upper at hc
    simp only [] at hc
    rcases List.mem_append.mp hc with h | h
    · rw [List.eq_of_mem_replicate h]
      decide
    · exact natToHexMinUpper_valid i ch h
  obtain ⟨bs, hbs, _, _⟩ := bfh_ok (format8Upper i).length (format8Upper i)
    (le_refl _) hvalid (by rw [hlen8])
  exact ⟨bs, hbs⟩

theorem serialize_xpub_ok {Pt : Type} (P : Prims Pt) (c cK fpr cn : List Nat)
    (depth : Nat) (hdepth : depth < 256) :
    ∃ e, serialize_xpub P 0 c cK depth fpr cn = .ok e := by
  obtain ⟨e, he⟩ := base_encode_58_ok
    (([4, 136, 178, 30] ++ [depth] ++ fpr ++ cn ++ c ++ cK)
      ++ (pyHash P ([4, 136, 178, 30] ++ [depth] ++ fpr ++ cn ++ c ++ cK)).take 4)
  refine ⟨e, ?_⟩
  unfold serialize_xpub
  rw [xpub_header_zero]
  simp only [except_bind_ok]
  unfold pyBytesSingle
  rw [if_pos hdepth]
  simp only [except_bind_ok]
  exact he

theorem serialize_xprv_ok {Pt : Type} (P : Prims Pt) (c k fpr cn : List Nat)
    (depth : Nat) (hdepth : depth < 256) :
    ∃ e, serialize_xprv P 0 c k depth fpr cn = .ok e := by
  obtain ⟨e, he⟩ := base_encode_58_ok
    (([4, 136, 173, 228] ++ [depth] ++ fpr ++ cn ++ c ++ [0] ++ k)
      ++ (pyHash P ([4, 136, 173, 228] ++ [depth] ++ fpr ++ cn ++ c ++ [0] ++ k)).take 4)
  refine ⟨e, ?_⟩
  unfold serialize_xprv
  rw [xprv_header_zero]
  simp only [except_bind_ok]
  unfold pyBytesSingle
  rw [if_pos hdepth]
  simp only [except_bind_ok]
  exact he

theorem xpub_from_xprv_eval {Pt : Type} (P : Prims Pt)
    (hsha_bytes : ∀ y, ∀ b ∈ P.sha256 y, b < 256)
    (hsha_len : ∀ y, (P.sha256 y).length = 32)
    (hser_len : ∀ p : Pt, (P.pointToSer p true).length = 33)
    (hser_bytes : ∀ p : Pt, ∀ b ∈ P.pointToSer p true, b < 256)
    (c k fpr cn : List Nat) (depth : Nat)
    (hc : c.length = 32) (hcb : ∀ b ∈ c, b < 256)
    (hk : k.length = 32) (hkb : ∀ b ∈ k, b < 256)
    (hfpr : fpr.length = 4) (hfprb : ∀ b ∈ fpr, b < 256)
    (hcn : cn.length = 4) (hcnb : ∀ b ∈ cn, b < 256)
    (hdepth : depth < 256)
    (xprv : List Nat)
    (hxprv : serialize_xprv P 0 c k depth fpr cn = .ok xprv) :
    ∃ xpub0, xpub_from_xprv P xprv = .ok xpub0 ∧
      deserialize_xpub P xpub0 = .ok (0, depth, fpr, cn, c, serOf P k) := by
  obtain ⟨x', hx', hdx'⟩ := serialize_deserialize_xprv P hsha_bytes hsha_len
    c k fpr cn depth hc hcb hk hkb hfpr hfprb hcn hcnb hdepth
  rw [hxprv] at hx'
  have hxx : x' = xprv := by
    injection hx' with h
    exact h.symm
  subst hxx
  obtain ⟨xpub0, hs, hd⟩ := serialize_deserialize_xpub P hsha_bytes hsha_len
    c (serOf P k) fpr cn depth hc hcb (hser_len _) (fun b hb => hser_bytes _ b hb)
    hfpr hfprb hcn hcnb hdepth
  refine ⟨xpub0, ?_, hd⟩
  unfold xpub_from_xprv
  rw [hdx']
  simp only [except_bind_ok]
  rw [get_pubkeys_snd]
  exact hs

/-- C9: for every extended private key (serialized with the mainnet
header), its xpub via `xpub_from_xprv`, and every derivation path of
non-hardened indices, public-only derivation of the xpub yields exactly
the serialized extended public key that private derivation of the xprv
produces as its public half.  The hypotheses record the contracts of the
external curve/hash libraries: compressed points serialize to 33 bytes
with marker 2/3 and deserialize back, scalar multiplication of the
generator is a homomorphism modulo the order, and SHA-256 returns 32
bytes. -/
theorem c9_public_matches_private :
    ∀ (Pt : Type) (P : Prims Pt),
      (∀ p : Pt, (P.pointToSer p true).length = 33) →
      (∀ p : Pt, ∀ b ∈ P.pointToSer p true, b < 256) →
      (∀ p : Pt, (P.pointToSer p true).head? = some 2
        ∨ (P.pointToSer p true).head? = some 3) →
      (∀ p : Pt, P.deserPoint (P.pointToSer p true) = .ok p) →
      (∀ a b : Nat, P.mulG ((a + b) % secpOrder) = P.padd (P.mulG a) (P.mulG b)) →
      (∀ x, (P.sha256 x).length = 32) →
      (∀ x, ∀ b ∈ P.sha256 x, b < 256) →
      ∀ (c k fpr cn : List Nat) (depth : Nat),
        c.length = 32 → (∀ b ∈ c, b < 256) →
        k.length = 32 → (∀ b ∈ k, b < 256) →
        fpr.length = 4 → (∀ b ∈ fpr, b < 256) →
        cn.length = 4 → (∀ b ∈ cn, b < 256) →
      ∀ (branch rest : List Nat),
        (∀ p ∈ pySplit 47 rest, p ≠ [] →
          (∀ ch ∈ p, isDigitCode ch = true) ∧ pyIntVal p < 2 ^ 31) →
        (∃ p ∈ pySplit 47 rest, p ≠ []) →
        depth + countNE (pySplit 47 rest) < 256 →
      ∀ (xprv xpub0 : List Nat),
        serialize_xprv P 0 c k depth fpr cn = .ok xprv →
        xpub_from_xprv P xprv = .ok xpub0 →
        ∃ xprvD xpubD,
          bip32_private_derivation P xprv branch (branch ++ rest)
            = .ok (xprvD, xpubD) ∧
          bip32_public_derivation P xpub0 branch (branch ++ rest) = .ok xpubD := by
  intro Pt P hser_len hser_bytes hser_head hdeser hhom hsha_len hsha_bytes
  intro c k fpr cn depth hc hcb hk hkb hfpr hfprb hcn hcnb
  intro branch rest hpieces hne hdbound
  intro xprv xpub0 hxprv hxpub0
  have hrest_ne : rest ≠ [] := by
    intro h
    subst h
    rcases hne with ⟨p, hp, hpne⟩
    simp [pySplit] at hp
    exact hpne hp
  -- initial deserializations
  obtain ⟨x', hx', hdx'⟩ := serialize_deserialize_xprv P hsha_bytes hsha_len
    c k fpr cn depth hc hcb hk hkb hfpr hfprb hcn hcnb (by omega)
  have hxx : x' = xprv := by
    rw [hxprv] at hx'
    injection hx' with h
    exact h.symm
  rw [hxx] at hdx'
  obtain ⟨xpub0', hxp', hdxp'⟩ := xpub_from_xprv_eval P hsha_bytes hsha_len
    hser_len hser_bytes c k fpr cn depth hc hcb hk hkb hfpr hfprb hcn hcnb
    (by omega) xprv hxprv
  have hxx2 : xpub0' = xpub0 := by
    rw [hxpub0] at hxp'
    injection hxp' with h
    exact h.symm
  rw [hxx2] at hdxp'
  -- run the loops
  obtain ⟨k', c', d', last', hl1, hl2, hl3, hl4, hl5⟩ :=
    loops_correspond P hser_head hdeser hhom (pySplit 47 rest) hpieces
      k c depth none
  have hlast_ne : last' ≠ none := by
    intro h
    obtain ⟨_, hcz⟩ := hl4 h
    have := countNE_pos _ hne
    omega
  obtain ⟨pk, i0, hlast⟩ : ∃ pk i0, last' = some (pk, i0) := by
    cases hl : last' with
    | none => exact absurd hl hlast_ne
    | some pr =>
      obtain ⟨a, b⟩ := pr
      exact ⟨a, b, rfl⟩
  have hi0 : i0 < 2 ^ 31 :=
    hl5 (fun _ _ h => by cases h) pk i0 hlast
  obtain ⟨cnb, hcnbfh⟩ := format8Upper_bfh_ok i0
    (lt_trans hi0 (by norm_num))
  have hd256 : d' < 256 := by omega
  obtain ⟨xpubD, hxpubD⟩ := serialize_xpub_ok P c' (serOf P k')
    ((hash_160 P (serOf P pk)).take 4) cnb d' hd256
  obtain ⟨xprvD, hxprvD⟩ := serialize_xprv_ok P c' k'
    ((hash_160 P (serOf P pk)).take 4) cnb d' hd256
  have hstart : startswith (branch ++ rest) branch = true := by
    unfold startswith
    rw [List.isPrefixOf_iff_prefix]
    exact List.prefix_append _ _
  have hbne : ¬ (branch = branch ++ rest) := by
    intro h
    have hlen := congrArg List.length h
    rw [List.length_append] at hlen
    exact hrest_ne (List.eq_nil_of_length_eq_zero (by omega))
  refine ⟨xprvD, xpubD, ?_, ?_⟩
  · unfold bip32_private_derivation
    rw [if_neg (by simp [hstart])]
    rw [if_neg hbne]
    rw [hdx']
    simp only [except_bind_ok]
    rw [List.drop_left]
    rw [hl1]
    simp only [except_bind_ok]
    rw [hlast]
    simp only [get_pubkeys_snd]
    rw [hcnbfh]
    simp only [except_bind_ok]
    rw [hxpubD]
    simp only [except_bind_ok]
    rw [hxprvD]
    simp only [except_bind_ok, except_pure_eq]
  · unfold bip32_public_derivation
    rw [hdxp']
    simp only [except_bind_ok]
    rw [if_neg (by simp [hstart])]
    rw [List.drop_left]
    have hl2' : bip32PubLoop P (pySplit 47 rest) (serOf P k) c depth none
        = .ok (serOf P k', c', d', lastMap P last') := hl2
    rw [hl2']
    simp only [except_bind_ok]
    rw [hlast]
    simp only [lastMap]
    rw [hcnbfh]
    simp only [except_bind_ok]
    exact hxpubD

/-- C9 witness: a concrete derivation of the path `"m/1"` over the
one-point group bundle; the public-only derivation of the xpub equals the
xpub produced by the private derivation. -/
theorem c9_public_matches_private_witness :
    ∃ xprv xpub0 xprvD xpubD,
      serialize_xprv PrimsUnit 0 (List.replicate 32 0) (List.replicate 32 1) 0
        (List.replicate 4 0) (List.replicate 4 0) = .ok xprv ∧
      xpub_from_xprv PrimsUnit xprv = .ok xpub0 ∧
      bip32_private_derivation PrimsUnit xprv [109, 47] ([109, 47] ++ [49])
        = .ok (xprvD, xpubD) ∧
      bip32_public_derivation PrimsUnit xpub0 [109, 47] ([109, 47] ++ [49])
        = .ok xpubD := by
  obtain ⟨xprv, hxprv⟩ := serialize_xprv_ok PrimsUnit (List.replicate 32 0)
    (List.replicate 32 1) (List.replicate 4 0) (List.replicate 4 0) 0 (by decide)
  obtain ⟨xpub0, hxp, _⟩ := xpub_from_xprv_eval PrimsUnit
    (fun _ => show ∀ b ∈ List.replicate 32 (0 : Nat), b < 256 by decide)
    (fun _ => show (List.replicate 32 (0 : Nat)).length = 32 by decide)
    (fun _ => rfl)
    (fun _ => show ∀ b ∈ 2 :: List.replicate 32 (0 : Nat), b < 256 by decide)
    (List.replicate 32 0) (List.replicate 32 1) (List.replicate 4 0)
    (List.replicate 4 0) 0 (by decide) (by decide) (by decide) (by decide)
    (by decide) (by decide) (by decide) (by decide) (by decide) xprv hxprv
  obtain ⟨xprvD, xpubD, h1, h2⟩ := c9_public_matches_private Unit PrimsUnit
    (fun _ => rfl)
    (fun _ => show ∀ b ∈ 2 :: List.replicate 32 (0 : Nat), b < 256 by decide)
    (fun _ => Or.inl rfl) (fun _ => rfl) (fun _ _ => rfl)
    (fun _ => show (List.replicate 32 (0 : Nat)).length = 32 by decide)
    (fun _ => show ∀ b ∈ List.replicate 32 (0 : Nat), b < 256 by decide)
    (List.replicate 32 0) (List.replicate 32 1) (List.replicate 4 0)
    (List.replicate 4 0) 0
    (by decide) (by decide) (by decide) (by decide)
    (by decide) (by decide) (by decide) (by decide)
    [109, 47] [49] (by decide) (by decide) (by decide)
    xprv xpub0 hxprv hxp
  exact ⟨xprv, xpub0, xprvD, xpubD, hxprv, hxp, h1, h2⟩

